import Mathlib

/-!
# Huffman coding (`main.go`): embedding and verification

A shallow embedding of the Go program: the `Node` tree, the `PriorityQueue`
driven by Go's `container/heap`, `BuildHuffmanTree`, `BuildCodes`, `Encode`
and `Decode`, followed by theorems about them.

Conventions of the embedding.

* A value of type `*Node` is a `Node`: either `Node.nil` (the nil pointer) or
  `Node.mk value freq left right` (a pointer to an allocated struct).  The
  program never mutates a node after allocating it, so pointers are
  represented by the trees they point to.
* `rune` is `Int` (an `int32` in Go); `int` is `Int`, and every addition the
  program performs on an `int` is reduced by `wrap` to the 64-bit two's
  complement range, as Go does on 64-bit platforms.
* A Go `string` that is valid UTF-8 is the `List Char` of the runes that
  `range` yields on it.
* A Go `map` is ranged over in an unspecified order.  `BuildHuffmanTree`
  therefore takes the entries of the table as the list in which `range`
  yields them, and `Encode` takes the function `range` that picks the order.
* A Go run-time panic is an `Except.error`.
-/

set_option autoImplicit false

namespace Huffman

/-! ## Data model -/

/-- Run-time panics of the Go program. -/
inductive Panic where
  | indexOutOfRange
  | nilDereference
  deriving DecidableEq, Repr

/-- A `*Node`: the nil pointer, or a pointer to a struct with the four fields
`value`, `freq`, `left`, `right` of `main.go` lines 9-14. -/
inductive Node where
  | nil : Node
  | mk (value : Int) (freq : Int) (left right : Node) : Node
  deriving DecidableEq, Repr

/-- The test `p == nil`. -/
def Node.isNil : Node → Bool
  | .nil => true
  | .mk _ _ _ _ => false

/-- Field `freq`.  The priority queue only ever holds pointers to allocated
nodes (lines 42 and 48), so the value chosen at `nil` is never read. -/
def Node.freq : Node → Int
  | .nil => 0
  | .mk _ f _ _ => f

/-- Field `value`. -/
def Node.value : Node → Int
  | .nil => 0
  | .mk v _ _ _ => v

/-- Go's `int` addition on a 64-bit platform: the sum reduced to
`[-2^63, 2^63)`. -/
def wrap (x : Int) : Int :=
  (x + 9223372036854775808) % 18446744073709551616 - 9223372036854775808

/-- A Go map with `rune` keys, as a lookup function. -/
abbrev GoMap (ν : Type) := Int → Option ν

/-- The map returned by `make(map[rune]V)`. -/
def GoMap.empty {ν : Type} : GoMap ν := fun _ => none

/-- The assignment `m[k] = v`. -/
def GoMap.set {ν : Type} (m : GoMap ν) (k : Int) (v : ν) : GoMap ν :=
  fun x => if x = k then some v else m x

/-- The read `m[k]` of a `map[rune]string`: the empty string when `k` is
missing. -/
def GoMap.get (m : GoMap (List Char)) (k : Int) : List Char :=
  (m k).getD []

/-! ## `PriorityQueue` (lines 17-36) and `container/heap` -/

/-- The slice of node pointers, line 17. -/
abbrev PriorityQueue := List Node

/-- Method `Len`, line 19. -/
def PriorityQueue.Len (pq : PriorityQueue) : Nat := pq.length

/-- Method `Less`, lines 20-22.  The indices passed by `container/heap` are
always in range. -/
def PriorityQueue.Less (pq : PriorityQueue) (i j : Nat) : Bool :=
  decide ((pq.getD i Node.nil).freq < (pq.getD j Node.nil).freq)

/-- Method `Swap`, lines 23-25, for indices in range. -/
def PriorityQueue.Swap (pq : PriorityQueue) (i j : Nat) : PriorityQueue :=
  (pq.set i (pq.getD j Node.nil)).set j (pq.getD i Node.nil)

/-- Method `Push`, lines 26-29. -/
def PriorityQueue.Push (pq : PriorityQueue) (x : Node) : PriorityQueue :=
  pq ++ [x]

/-- Method `Pop`, lines 30-36: the last element and the slice without it;
`old[n-1]` panics on the empty slice. -/
def PriorityQueue.Pop (pq : PriorityQueue) : Except Panic (Node × PriorityQueue) :=
  match pq with
  | [] => .error .indexOutOfRange
  | _ :: _ => .ok (pq.getD (pq.length - 1) Node.nil, pq.take (pq.length - 1))

/-- Go's `heap.up(h, j)`: the loop runs at most `fuel` times; a run from `j`
needs at most `j` iterations (`up_fuel`). -/
def heap.up : Nat → PriorityQueue → Nat → PriorityQueue
  | 0, h, _ => h
  | fuel + 1, h, j =>
    let i := (j - 1) / 2
    if i = j ∨ !PriorityQueue.Less h j i then h
    else heap.up fuel (PriorityQueue.Swap h i j) i

/-- Go's `heap.down(h, i0, n)`: the loop runs at most `fuel` times; a run from
`i` needs at most `n - i` iterations (`down_fuel`). -/
def heap.down : Nat → PriorityQueue → Nat → Nat → PriorityQueue
  | 0, h, _, _ => h
  | fuel + 1, h, i, n =>
    let j1 := 2 * i + 1
    if j1 ≥ n then h
    else
      let j := if j1 + 1 < n ∧ PriorityQueue.Less h (j1 + 1) j1 then j1 + 1 else j1
      if !PriorityQueue.Less h j i then h
      else heap.down fuel (PriorityQueue.Swap h i j) j n

/-- The loop of Go's `heap.Init`: `down(h, i, n)` for `i = k-1, ..., 0`. -/
def heap.initLoop : Nat → PriorityQueue → Nat → PriorityQueue
  | 0, h, _ => h
  | k + 1, h, n => heap.initLoop k (heap.down n h k n) n

/-- Go's `heap.Init`. -/
def heap.Init (h : PriorityQueue) : PriorityQueue :=
  heap.initLoop (PriorityQueue.Len h / 2) h (PriorityQueue.Len h)

/-- Go's `heap.Push`. -/
def heap.Push (h : PriorityQueue) (x : Node) : PriorityQueue :=
  let h1 := PriorityQueue.Push h x
  heap.up (PriorityQueue.Len h1) h1 (PriorityQueue.Len h1 - 1)

/-- Go's `heap.Pop`: `n := h.Len() - 1; h.Swap(0, n); down(h, 0, n);
return h.Pop()`.  On the empty queue `Swap(0, -1)` indexes out of range. -/
def heap.Pop (h : PriorityQueue) : Except Panic (Node × PriorityQueue) :=
  match h with
  | [] => .error .indexOutOfRange
  | _ :: _ =>
    let n := PriorityQueue.Len h - 1
    PriorityQueue.Pop (heap.down n (PriorityQueue.Swap h 0 n) 0 n)

/-! ## `BuildHuffmanTree` (lines 39-52) -/

/-- The merge loop, lines 45-50; every iteration shortens the queue by one, so
a queue of length `n` needs at most `n` iterations (`loop_fuel`). -/
def BuildHuffmanTree.loop : Nat → PriorityQueue → Except Panic PriorityQueue
  | 0, pq => .ok pq
  | fuel + 1, pq =>
    if PriorityQueue.Len pq > 1 then
      match heap.Pop pq with
      | .error e => .error e
      | .ok (left, pq1) =>
        match heap.Pop pq1 with
        | .error e => .error e
        | .ok (right, pq2) =>
          let parent := Node.mk 0 (wrap (left.freq + right.freq)) left right
          BuildHuffmanTree.loop fuel (heap.Push pq2 parent)
    else .ok pq

/-- `BuildHuffmanTree(freq)`, where `freq` lists the entries of the map in the
order in which `range` yields them. -/
def BuildHuffmanTree (freq : List (Int × Int)) : Except Panic Node :=
  let pq : PriorityQueue := freq.map (fun e => Node.mk e.1 e.2 Node.nil Node.nil)
  let pq := heap.Init pq
  match BuildHuffmanTree.loop (PriorityQueue.Len pq) pq with
  | .error e => .error e
  | .ok pq =>
    match heap.Pop pq with
    | .error e => .error e
    | .ok (root, _) => .ok root

/-! ## `BuildCodes` (lines 55-64) -/

/-- `BuildCodes(root, code, codes)`, returning the updated map. -/
def BuildCodes : Node → List Char → GoMap (List Char) → GoMap (List Char)
  | .nil, _, codes => codes
  | .mk value _ left right, code, codes =>
    let codes1 := if left.isNil && right.isNil then codes.set value code else codes
    let codes2 := BuildCodes left (code ++ ['0']) codes1
    BuildCodes right (code ++ ['1']) codes2

/-! ## `Encode` (lines 67-79) -/

/-- The rune that `range` yields for a character of a valid string. -/
def rune (c : Char) : Int := (c.toNat : Int)

/-- The statement `freq[char]++` on the entries of the map (kept in the order
of first insertion). -/
def freqIncr : List (Int × Int) → Int → List (Int × Int)
  | [], c => [(c, wrap (0 + 1))]
  | (k, n) :: m, c => if k = c then (k, wrap (n + 1)) :: m else (k, n) :: freqIncr m c

/-- The frequency table of lines 68-71. -/
def countFreq (s : List Char) : List (Int × Int) :=
  s.foldl (fun m c => freqIncr m (rune c)) []

/-- `Encode(s)`; `range` gives the order in which the frequency map is
iterated by `BuildHuffmanTree`. -/
def Encode (range : List (Int × Int) → List (Int × Int)) (s : List Char) :
    Except Panic (List Char × GoMap (List Char)) :=
  match BuildHuffmanTree (range (countFreq s)) with
  | .error e => .error e
  | .ok root =>
    let codes := BuildCodes root [] GoMap.empty
    .ok (s.foldl (fun encoded c => encoded ++ codes.get (rune c)) [], codes)

/-! ## `Decode` (lines 82-96) -/

/-- The conversion `string(r)` of a rune: its UTF-8 encoding, or that of
U+FFFD when `r` is not a Unicode scalar value. -/
def runeToString (r : Int) : List Char :=
  if (0 ≤ r ∧ r < 55296) ∨ (57344 ≤ r ∧ r ≤ 1114111) then [Char.ofNat r.toNat]
  else [Char.ofNat 65533]

/-- The loop of `Decode`, lines 84-94, run from the cursor `current` with the
output `decoded` so far; it returns the two loop variables at the end of the
stream. -/
def Decode.loop (root : Node) :
    List Char → Node → List Char → Except Panic (Node × List Char)
  | [], current, decoded => .ok (current, decoded)
  | bit :: rest, current, decoded =>
    match current with
    | .nil => .error .nilDereference
    | .mk _ _ left right =>
      match (if bit = '0' then left else right) with
      | .nil => .error .nilDereference
      | .mk value f l r =>
        if l.isNil && r.isNil then
          Decode.loop root rest root (decoded ++ runeToString value)
        else Decode.loop root rest (.mk value f l r) decoded

/-- `Decode(encoded, root)`: the loop started at the root with the empty
output, then `return decoded`. -/
def Decode (encoded : List Char) (root : Node) : Except Panic (List Char) :=
  match Decode.loop root encoded root [] with
  | .error e => .error e
  | .ok (_, decoded) => .ok decoded

/-! ## Notions used to state the properties -/

/-- The leaves of a tree in the order `BuildCodes` visits them, each as the
pair of its symbol and of the path from the root to it: `'0'` for a step to a
left child, `'1'` for a step to a right child. -/
def leafPaths : Node → List (Int × List Char)
  | .nil => []
  | .mk value _ left right =>
    (if left.isNil && right.isNil then [(value, [])] else [])
      ++ ((leafPaths left).map (fun e => (e.1, '0' :: e.2))
      ++ (leafPaths right).map (fun e => (e.1, '1' :: e.2)))

/-- A tree in which every leaf is at depth 3 (eight leaves, `'a'` to `'h'`). -/
def depth3Tree : Node :=
  let leaf (c : Int) : Node := Node.mk c 1 Node.nil Node.nil
  let pair (a b : Node) : Node := Node.mk 0 (a.freq + b.freq) a b
  pair (pair (pair (leaf 97) (leaf 98)) (pair (leaf 99) (leaf 100)))
    (pair (pair (leaf 101) (leaf 102)) (pair (leaf 103) (leaf 104)))

/-- The frequency of the node at index `i` of the queue. -/
def key (h : PriorityQueue) (i : Nat) : Int := (h.getD i Node.nil).freq

/-- Heap order on the first `n` slots, for the slots whose parent is at index
`k` or later: no slot has a smaller frequency than its parent `(j-1)/2`. -/
def IsHeapFrom (h : PriorityQueue) (n k : Nat) : Prop :=
  ∀ j, j < n → 0 < j → k ≤ (j - 1) / 2 → key h ((j - 1) / 2) ≤ key h j

/-- Heap order on the whole queue. -/
def IsHeap (h : PriorityQueue) : Prop := IsHeapFrom h h.length 0

/-- Heap order that may fail only between slot `i` and its children, while the
parent of `i` is not above the children of `i`: the state of the queue at the
head of the loop of `heap.down`. -/
def HeapExceptDown (h : PriorityQueue) (n k i : Nat) : Prop :=
  (∀ j, j < n → 0 < j → k ≤ (j - 1) / 2 → (j - 1) / 2 ≠ i →
      key h ((j - 1) / 2) ≤ key h j) ∧
  (∀ c, c < n → 0 < c → (c - 1) / 2 = i → 0 < i → k ≤ (i - 1) / 2 →
      key h ((i - 1) / 2) ≤ key h c)

/-- Heap order that may fail only between slot `j` and its parent, while the
parent of `j` is not above the children of `j`: the state of the queue at the
head of the loop of `heap.up`. -/
def HeapExceptUp (h : PriorityQueue) (j : Nat) : Prop :=
  (∀ c, c < h.length → 0 < c → c ≠ j → key h ((c - 1) / 2) ≤ key h c) ∧
  (∀ c, c < h.length → 0 < c → (c - 1) / 2 = j → 0 < j →
      key h ((j - 1) / 2) ≤ key h c)

/-- The node allocated at line 48 for the two nodes just removed. -/
def parentOf (left right : Node) : Node :=
  Node.mk 0 (wrap (left.freq + right.freq)) left right

/-- The leaf allocated at line 42 for an entry of the table. -/
def leafOf (e : Int × Int) : Node := Node.mk e.1 e.2 Node.nil Node.nil

/-- The merge loop seen on the queue as a collection: `Huff q t` when `t` is
obtained from the nodes `q` by repeatedly replacing a node `l` of least
frequency and a node `r` of least frequency among the others by
`parentOf l r`, until one node is left. -/
inductive Huff : List Node → Node → Prop
  | one (t : Node) : Huff [t] t
  | merge (q : List Node) (l r : Node) (rest : List Node) (t : Node) :
      q.Perm (l :: r :: rest) → (∀ y ∈ r :: rest, l.freq ≤ y.freq) →
      (∀ y ∈ rest, r.freq ≤ y.freq) → Huff (parentOf l r :: rest) t → Huff q t

/-- Every node of the tree has no child or two children: `left` and `right`
are both nil or both non-nil. -/
def Node.shapeOk : Node → Bool
  | .nil => true
  | .mk _ _ l r => (l.isNil == r.isNil) && l.shapeOk && r.shapeOk

/-- The leaves of a tree from left to right, each as the pair of its `value`
and `freq` fields. -/
def Node.leaves : Node → List (Int × Int)
  | .nil => []
  | .mk v f l r => (if l.isNil && r.isNil then [(v, f)] else []) ++ (l.leaves ++ r.leaves)

/-- The sum of the frequencies of the leaves of a tree. -/
def Node.leafSum (t : Node) : Int := (t.leaves.map Prod.snd).sum

/-- The leaves of all the trees of a queue. -/
def forestLeaves : List Node → List (Int × Int)
  | [] => []
  | x :: q => x.leaves ++ forestLeaves q

/-- The range of Go's `int` on a 64-bit platform. -/
def isInt64 (x : Int) : Prop :=
  -9223372036854775808 ≤ x ∧ x < 9223372036854775808

/-- The read `freq[k]` of the frequency map: `0` when `k` is missing. -/
def freqGet : List (Int × Int) → Int → Int
  | [], _ => 0
  | (k, n) :: m, c => if k = c then n else freqGet m c

/-- The test `n.left == nil && n.right == nil` on an allocated node. -/
def Node.isLeaf : Node → Bool
  | .nil => false
  | .mk _ _ l r => l.isNil && r.isNil

/-- The leaves of a tree from left to right, each as the pair of its `freq`
field and of its depth (the number of edges from the root). -/
def Node.wd : Node → List (Int × Nat)
  | .nil => []
  | .mk _ f l r =>
    if l.isNil && r.isNil then [(f, 0)]
    else (l.wd ++ r.wd).map (fun p => (p.1, p.2 + 1))

/-- The weighted length of a list of (weight, depth) pairs: the sum of weight
times depth. -/
def pcost (P : List (Int × Nat)) : Int := (P.map (fun p => p.1 * (p.2 : Int))).sum

/-- The weighted path length of a tree: the sum over its leaves of frequency
times depth. -/
def Node.cost (t : Node) : Int := pcost t.wd

/-- The lists of leaf depths of the binary trees in which every node has no
child or two children, in any order. -/
inductive FullDepths : List Nat → Prop
  | leaf : FullDepths [0]
  | node (D D1 D2 : List Nat) : FullDepths D1 → FullDepths D2 →
      D.Perm ((D1 ++ D2).map Nat.succ) → FullDepths D

/-- The state of the queue in a run on counts that do not overflow: every
node is allocated, its `freq` is the sum of the frequencies of its leaves and
is not negative, and the frequencies of the queue add up to less than
`2^63`. -/
def ForestOk (q : List Node) : Prop :=
  (∀ x ∈ q, x.isNil = false ∧ x.freq = x.leafSum ∧ 0 ≤ x.freq)
    ∧ (q.map Node.freq).sum < 9223372036854775808

/-- The tree with every one-child node replaced by its child: a tree with the
same leaves in which every node has no child or two children. -/
def Node.contract : Node → Node
  | .nil => .nil
  | .mk v f l r =>
    if l.isNil && r.isNil then .mk v f .nil .nil
    else if l.contract.isNil then r.contract
    else if r.contract.isNil then l.contract
    else .mk v f l.contract r.contract

/-- A table with counts `2^62` (four times) and `1`, whose counts add up to
more than an `int` holds. -/
def overflowTable : List (Int × Int) :=
  [(97, 4611686018427387904), (98, 4611686018427387904), (99, 4611686018427387904),
    (100, 4611686018427387904), (101, 1)]

/-- A tree over the entries of `overflowTable`: `((a b) (c (d e)))`. -/
def overflowRival : Node :=
  let leaf (c f : Int) : Node := Node.mk c f Node.nil Node.nil
  Node.mk 0 0
    (Node.mk 0 0 (leaf 97 4611686018427387904) (leaf 98 4611686018427387904))
    (Node.mk 0 0 (leaf 99 4611686018427387904)
      (Node.mk 0 0 (leaf 100 4611686018427387904) (leaf 101 1)))

/-- The leaves of a tree from left to right, each with its symbol, its
frequency and the path from the root to it. -/
def Node.info : Node → List (Int × Int × List Char)
  | .nil => []
  | .mk v f l r =>
    if l.isNil && r.isNil then [(v, f, [])]
    else l.info.map (fun i => (i.1, i.2.1, '0' :: i.2.2))
      ++ r.info.map (fun i => (i.1, i.2.1, '1' :: i.2.2))

/-- The bit for which `Decode` takes a character of the stream: `'0'` is 0 and
every other character is 1. -/
def normBit (c : Char) : Char := if c = '0' then '0' else '1'

/-- The number of internal nodes of a tree: the allocated nodes that are not
leaves. -/
def Node.internalCount : Node → Nat
  | .nil => 0
  | .mk _ _ l r => if l.isNil && r.isNil then 0 else 1 + l.internalCount + r.internalCount

/-- In every internal node of the tree, the left child has at most the
frequency of the right child, and the node's frequency is the `int` sum of the
frequencies of its children (the sum reduced by `wrap`). -/
def Node.mergeOk : Node → Bool
  | .nil => true
  | .mk _ f l r =>
    (l.isNil && r.isNil)
      || (decide (l.freq ≤ r.freq) && decide (f = wrap (l.freq + r.freq))
          && l.mergeOk && r.mergeOk)

/-- In every internal node of the tree, the node's frequency is the sum of the
frequencies of its children. -/
def Node.sumOk : Node → Bool
  | .nil => true
  | .mk _ f l r =>
    (l.isNil && r.isNil) || (decide (f = l.freq + r.freq) && l.sumOk && r.sumOk)

/-- The message of `main`, line 99. -/
def helloWorld : List Char := ['h', 'e', 'l', 'l', 'o', ' ', 'w', 'o', 'r', 'l', 'd']

/-- The entries of the map literal of line 107, in an order in which `range`
may yield them: `e` before `h`, then as written. -/
def mainTableOrder : List (Int × Int) :=
  [(101, 1), (104, 1), (108, 3), (111, 2), (32, 1), (119, 1), (114, 1), (100, 1)]

/-- The string that `main` prints as decoded message under `mainTableOrder`. -/
def ehlloWorld : List Char := ['e', 'h', 'l', 'l', 'o', ' ', 'w', 'o', 'r', 'l', 'd']

/-- The number of allocated nodes of a tree. -/
def Node.size : Node → Nat
  | .nil => 0
  | .mk _ _ l r => 1 + l.size + r.size

/-! ## Theorems -/

/-! ### `BuildCodes` -/

theorem foldl_set_lookup (L : List (Int × List Char)) (code : List Char) :
    ∀ (m : GoMap (List Char)) (c : Int) (p : List Char),
      (L.foldl (fun m e => GoMap.set m e.1 (code ++ e.2)) m) c = some p →
        (∃ q, (c, q) ∈ L ∧ p = code ++ q) ∨ m c = some p := by
  induction L with
  | nil => intro m c p h; exact Or.inr h
  | cons e L ih =>
    intro m c p h
    rw [List.foldl_cons] at h
    rcases ih _ c p h with ⟨q, hq, rfl⟩ | h2
    · exact Or.inl ⟨q, List.mem_cons_of_mem _ hq, rfl⟩
    · unfold GoMap.set at h2
      by_cases hc : c = e.1
      · rw [if_pos hc] at h2
        refine Or.inl ⟨e.2, ?_, (Option.some.inj h2).symm⟩
        subst hc
        exact List.mem_cons_self _ _
      · rw [if_neg hc] at h2
        exact Or.inr h2

theorem foldl_set_lookup_mem (L : List (Int × List Char)) (code : List Char) :
    ∀ (m : GoMap (List Char)) (c : Int) (q : List Char),
      (L.map Prod.fst).Nodup → (c, q) ∈ L →
        (L.foldl (fun m e => GoMap.set m e.1 (code ++ e.2)) m) c = some (code ++ q) := by
  induction L with
  | nil => intro m c q _ h; simp at h
  | cons e L ih =>
    intro m c q hnd hmem
    rw [List.foldl_cons]
    rw [List.map_cons, List.nodup_cons] at hnd
    rcases List.mem_cons.1 hmem with rfl | h
    · by_contra hne
      rcases h2 : (L.foldl (fun m e => GoMap.set m e.1 (code ++ e.2))
          (GoMap.set m c (code ++ q))) c with _ | p
      · have : ∀ (L : List (Int × List Char)) (m : GoMap (List Char)),
            m c ≠ none →
            (L.foldl (fun m e => GoMap.set m e.1 (code ++ e.2)) m) c ≠ none := by
          intro L
          induction L with
          | nil => intro m hm; exact hm
          | cons e L ih2 =>
            intro m hm
            rw [List.foldl_cons]
            apply ih2
            unfold GoMap.set
            split
            · simp
            · exact hm
        exact this L _ (by simp [GoMap.set]) h2
      · rcases foldl_set_lookup L code _ c p h2 with ⟨q2, hq2, _⟩ | h3
        · exact hnd.1 (List.mem_map.2 ⟨(c, q2), hq2, rfl⟩)
        · simp [GoMap.set] at h3
          exact hne (by rw [h2, h3])
    · exact ih _ c q hnd.2 h

theorem BuildCodes_eq_foldl (t : Node) :
    ∀ (code : List Char) (codes : GoMap (List Char)),
      BuildCodes t code codes
        = (leafPaths t).foldl (fun m e => GoMap.set m e.1 (code ++ e.2)) codes := by
  induction t with
  | nil => intro code codes; rfl
  | mk v f l r ihl ihr =>
    intro code codes
    simp only [BuildCodes, leafPaths, List.foldl_append, List.foldl_map]
    rw [ihr, ihl]
    simp only [List.append_assoc, List.singleton_append]
    congr 1
    congr 1
    split <;> simp

theorem leafPaths_nil_of_leaf (v f : Int) (l r : Node)
    (h : (l.isNil && r.isNil) = true) :
    leafPaths (Node.mk v f l r) = [(v, [])] := by
  cases l <;> cases r <;> simp_all [Node.isNil, leafPaths]

theorem leafPaths_no_extension (t : Node) :
    ∀ (a b : Int) (pa pb : List Char),
      (a, pa) ∈ leafPaths t → (b, pb) ∈ leafPaths t → pa <+: pb → a = b ∧ pa = pb := by
  induction t with
  | nil => intro a b pa pb h; simp [leafPaths] at h
  | mk v f l r ihl ihr =>
    intro a b pa pb ha hb hp
    by_cases hleaf : (l.isNil && r.isNil) = true
    · rw [leafPaths_nil_of_leaf v f l r hleaf] at ha hb
      simp at ha hb
      rw [ha.1, hb.1, ha.2, hb.2]
      exact ⟨rfl, rfl⟩
    · simp only [leafPaths, hleaf, if_false, List.nil_append, List.mem_append,
        List.mem_map, Bool.false_eq_true] at ha hb
      rcases ha with ⟨ea, hea, hae⟩ | ⟨ea, hea, hae⟩ <;>
        rcases hb with ⟨eb, heb, hbe⟩ | ⟨eb, heb, hbe⟩
      · simp only [Prod.mk.injEq] at hae hbe
        obtain ⟨rfl, rfl⟩ := hae
        obtain ⟨rfl, rfl⟩ := hbe
        rw [List.cons_prefix_cons] at hp
        have := ihl ea.1 eb.1 ea.2 eb.2 hea heb hp.2
        rw [this.1, this.2]
        exact ⟨rfl, rfl⟩
      · simp only [Prod.mk.injEq] at hae hbe
        rw [← hae.2, ← hbe.2, List.cons_prefix_cons] at hp
        exact absurd hp.1 (by decide)
      · simp only [Prod.mk.injEq] at hae hbe
        rw [← hae.2, ← hbe.2, List.cons_prefix_cons] at hp
        exact absurd hp.1 (by decide)
      · simp only [Prod.mk.injEq] at hae hbe
        obtain ⟨rfl, rfl⟩ := hae
        obtain ⟨rfl, rfl⟩ := hbe
        rw [List.cons_prefix_cons] at hp
        have := ihr ea.1 eb.1 ea.2 eb.2 hea heb hp.2
        rw [this.1, this.2]
        exact ⟨rfl, rfl⟩

theorem BuildCodes_lookup (root : Node) (c : Int) (p : List Char)
    (h : BuildCodes root [] GoMap.empty c = some p) : (c, p) ∈ leafPaths root := by
  rw [BuildCodes_eq_foldl] at h
  rcases foldl_set_lookup _ _ _ c p h with ⟨q, hq, rfl⟩ | h2
  · simpa using hq
  · simp [GoMap.empty] at h2

/-- Claim C2.  Prefix-free: for every tree `root`, in the table filled by
`BuildCodes(root, "", empty map)` the code word of a symbol `a` is never a
prefix of the code word of a different symbol `b`. -/
theorem C2_prefix_free (root : Node) (a b : Int) (pa pb : List Char) (hab : a ≠ b)
    (ha : BuildCodes root [] GoMap.empty a = some pa)
    (hb : BuildCodes root [] GoMap.empty b = some pb) : ¬ pa <+: pb := by
  intro hp
  exact hab (leafPaths_no_extension root a b pa pb (BuildCodes_lookup root a pa ha)
    (BuildCodes_lookup root b pb hb) hp).1

theorem C2_prefix_free_witness :
    ¬ (['0'] : List Char) <+: ['1', '0'] :=
  C2_prefix_free
    (Node.mk 0 4 (Node.mk 97 2 Node.nil Node.nil)
      (Node.mk 0 2 (Node.mk 98 1 Node.nil Node.nil) (Node.mk 99 1 Node.nil Node.nil)))
    97 98 ['0'] ['1', '0'] (by decide) rfl rfl

theorem C4_aux (root : Node) (hd : ((leafPaths root).map Prod.fst).Nodup)
    (c : Int) (p : List Char) :
    BuildCodes root [] GoMap.empty c = some p ↔ (c, p) ∈ leafPaths root := by
  constructor
  · exact BuildCodes_lookup root c p
  · intro h
    rw [BuildCodes_eq_foldl]
    simpa using foldl_set_lookup_mem (leafPaths root) [] GoMap.empty c p hd h

/-- Claim C4.  Code table derivation: for every tree whose leaves carry
pairwise distinct symbols, the table filled by `BuildCodes(root, "", empty
map)` maps a symbol `c` to the word `p` exactly when the tree has a leaf with
symbol `c` at the end of the path `p` from the root (`'0'` for left, `'1'` for
right); so its keys are exactly the symbols of the leaves. -/
theorem C4_code_table (root : Node) (hd : ((leafPaths root).map Prod.fst).Nodup)
    (c : Int) (p : List Char) :
    BuildCodes root [] GoMap.empty c = some p ↔ (c, p) ∈ leafPaths root := by
  constructor
  · intro h
    rw [BuildCodes_eq_foldl] at h
    rcases foldl_set_lookup _ _ _ c p h with ⟨q, hq, rfl⟩ | h2
    · simpa using hq
    · simp [GoMap.empty] at h2
  · intro h
    rw [BuildCodes_eq_foldl]
    simpa using foldl_set_lookup_mem (leafPaths root) [] GoMap.empty c p hd h

theorem C4_code_table_witness :
    BuildCodes (Node.mk 0 4 (Node.mk 97 2 Node.nil Node.nil)
      (Node.mk 0 2 (Node.mk 98 1 Node.nil Node.nil) (Node.mk 99 1 Node.nil Node.nil)))
      [] GoMap.empty 99 = some ['1', '1']
    ↔ ((99 : Int), ['1', '1']) ∈ leafPaths (Node.mk 0 4 (Node.mk 97 2 Node.nil Node.nil)
      (Node.mk 0 2 (Node.mk 98 1 Node.nil Node.nil) (Node.mk 99 1 Node.nil Node.nil))) :=
  C4_code_table _ (by decide) 99 ['1', '1']

/-! ### Empty input and truncated streams -/

/-- Claim C9, as stated, fails: on the empty table nothing checks the input
and no InvalidInput error is raised.  `heap.Init` and the merge loop run on the
empty queue, and the failure is the run-time panic "index out of range" of
`Swap(0, -1)` inside the final `heap.Pop`; the program's only failures are its
two run-time panics. -/
theorem C9_counterexample :
    heap.Init ([] : PriorityQueue) = []
      ∧ BuildHuffmanTree.loop 0 [] = .ok []
      ∧ heap.Pop [] = .error Panic.indexOutOfRange
      ∧ BuildHuffmanTree [] = .error Panic.indexOutOfRange
      ∧ ∀ p : Panic, p = Panic.indexOutOfRange ∨ p = Panic.nilDereference :=
  ⟨rfl, rfl, rfl, rfl, fun p => by cases p <;> simp⟩

/-- Claim C9, amended.  Empty input: `BuildHuffmanTree` applied to the empty
frequency table returns no tree: it stops with Go's run-time panic "index out
of range", raised by the final `heap.Pop` on the empty queue (the program has
no input check and no InvalidInput error), and so does `Encode("")`, whose
frequency table is empty, whatever the iteration order. -/
theorem C9_empty_input (range : List (Int × Int) → List (Int × Int))
    (hr : (range (countFreq [])).Perm (countFreq [])) :
    heap.Init ([] : PriorityQueue) = []
      ∧ BuildHuffmanTree.loop (PriorityQueue.Len []) [] = .ok []
      ∧ heap.Pop [] = .error Panic.indexOutOfRange
      ∧ BuildHuffmanTree [] = .error Panic.indexOutOfRange
      ∧ Encode range [] = .error Panic.indexOutOfRange := by
  have h : range (countFreq []) = [] := List.Perm.eq_nil hr
  refine ⟨rfl, rfl, rfl, rfl, ?_⟩
  unfold Encode
  rw [h]
  rfl

theorem C9_empty_input_witness :
    heap.Init ([] : PriorityQueue) = []
      ∧ BuildHuffmanTree.loop (PriorityQueue.Len []) [] = .ok []
      ∧ heap.Pop [] = .error Panic.indexOutOfRange
      ∧ BuildHuffmanTree [] = .error Panic.indexOutOfRange
      ∧ Encode id [] = .error Panic.indexOutOfRange :=
  C9_empty_input id (List.Perm.refl _)

/-- Claim C10, as stated, fails: against the tree whose eight leaves are all at
depth 3, the stream `"01"` leaves the cursor on an internal node below the
root, and `Decode` returns the empty string and no error. -/
theorem C10_counterexample :
    ∃ cur, Decode.loop depth3Tree ['0', '1'] depth3Tree [] = .ok (cur, [])
      ∧ cur ≠ depth3Tree ∧ cur.isNil = false
      ∧ Decode ['0', '1'] depth3Tree = .ok [] :=
  ⟨Node.mk 0 2 (Node.mk 99 1 Node.nil Node.nil) (Node.mk 100 1 Node.nil Node.nil),
    rfl, by decide, rfl, rfl⟩

/-! ### `container/heap`: `Swap`, `down` and `up` keep the elements and restore the heap order -/

theorem length_Swap (h : PriorityQueue) (i j : Nat) :
    (PriorityQueue.Swap h i j).length = h.length := by
  simp [PriorityQueue.Swap]

theorem getD_Swap (h : PriorityQueue) (i j m : Nat) (hi : i < h.length) (hj : j < h.length) :
    (PriorityQueue.Swap h i j).getD m Node.nil
      = if m = j then h.getD i Node.nil else if m = i then h.getD j Node.nil
        else h.getD m Node.nil := by
  simp only [PriorityQueue.Swap, List.getD_eq_getElem?_getD, List.getElem?_set, List.length_set]
  by_cases h1 : j = m
  · subst h1; simp [hj]
  · by_cases h2 : i = m
    · subst h2; simp [h1, hi, Ne.symm h1]
    · simp [h1, h2, Ne.symm h1, Ne.symm h2]

theorem Swap_perm (h : PriorityQueue) (i j : Nat) (hi : i < h.length) (hj : j < h.length) :
    (PriorityQueue.Swap h i j).Perm h := by
  rw [List.perm_iff_count]
  intro a
  unfold PriorityQueue.Swap
  have hj2 : j < (h.set i (h.getD j Node.nil)).length := by simpa using hj
  rw [List.count_set _ _ _ _ hj2, List.count_set _ _ _ _ hi]
  have e1 : h.getD j Node.nil = h[j] := by simp [hj]
  have e2 : h.getD i Node.nil = h[i] := by simp [hi]
  have c1 : h[i] = a → 0 < h.count a := fun e => by
    rw [List.count_pos_iff]; exact e ▸ List.getElem_mem _
  have c2 : h[j] = a → 0 < h.count a := fun e => by
    rw [List.count_pos_iff]; exact e ▸ List.getElem_mem _
  simp only [List.getElem_set, beq_iff_eq, e1, e2]
  by_cases hij : i = j
  · subst hij
    simp only [if_true]
    by_cases h1 : h[i] = a
    · have := c1 h1
      simp only [h1, if_true]
      omega
    · simp [h1]
  · simp only [hij, if_false]
    by_cases h1 : h[i] = a <;> by_cases h2 : h[j] = a
    · have := c1 h1
      simp only [h1, h2, if_true]
      omega
    · have := c1 h1
      simp only [h1, h2, if_true, if_false]
      omega
    · have := c2 h2
      simp only [h1, h2, if_true, if_false]
      omega
    · simp [h1, h2]


theorem key_Swap (h : PriorityQueue) (i j m : Nat) (hi : i < h.length) (hj : j < h.length) :
    key (PriorityQueue.Swap h i j) m
      = if m = j then key h i else if m = i then key h j else key h m := by
  unfold key
  rw [getD_Swap h i j m hi hj]
  split
  · rfl
  · split <;> rfl

theorem Less_iff (h : PriorityQueue) (i j : Nat) :
    PriorityQueue.Less h i j = true ↔ key h i < key h j := by
  simp [PriorityQueue.Less, key]

theorem down_perm : ∀ (fuel : Nat) (h : PriorityQueue) (i n : Nat), n ≤ h.length →
    (heap.down fuel h i n).Perm h ∧ (heap.down fuel h i n).length = h.length
      ∧ ∀ m, n ≤ m → (heap.down fuel h i n).getD m Node.nil = h.getD m Node.nil := by
  intro fuel
  induction fuel with
  | zero => intro h i n _; exact ⟨List.Perm.refl _, rfl, fun _ _ => rfl⟩
  | succ fuel ih =>
    intro h i n hn
    unfold heap.down
    simp only
    split
    · exact ⟨List.Perm.refl _, rfl, fun _ _ => rfl⟩
    · rename_i hj1
      obtain ⟨j, hj⟩ : ∃ j, j = if 2 * i + 1 + 1 < n ∧
          PriorityQueue.Less h (2 * i + 1 + 1) (2 * i + 1) = true
          then 2 * i + 1 + 1 else 2 * i + 1 := ⟨_, rfl⟩
      rw [← hj]
      have hjn : j < n := by
        rw [hj]; split
        · rename_i hc; exact hc.1
        · omega
      have hij : i < j := by
        rw [hj]; split <;> omega
      split
      · exact ⟨List.Perm.refl _, rfl, fun _ _ => rfl⟩
      · have hs := ih (PriorityQueue.Swap h i j) j n (by rw [length_Swap]; exact hn)
        rw [length_Swap] at hs
        refine ⟨hs.1.trans (Swap_perm h i j (by omega) (by omega)), hs.2.1, ?_⟩
        intro m hm
        rw [hs.2.2 m hm, getD_Swap h i j m (by omega) (by omega)]
        rw [if_neg (by omega), if_neg (by omega)]

theorem down_heap : ∀ (fuel : Nat) (h : PriorityQueue) (i n k : Nat), n ≤ h.length →
    n ≤ i + fuel → k ≤ i → HeapExceptDown h n k i →
    IsHeapFrom (heap.down fuel h i n) n k := by
  intro fuel
  induction fuel with
  | zero =>
    intro h i n k _ hf _ hpre j hj hj0 hkj
    unfold heap.down
    exact hpre.1 j hj hj0 hkj (by omega)
  | succ fuel ih =>
    intro h i n k hn hf hk hpre
    unfold heap.down
    simp only
    split
    · intro j hj hj0 hkj
      exact hpre.1 j hj hj0 hkj (by omega)
    · rename_i hj1
      obtain ⟨j, hj⟩ : ∃ j, j = if 2 * i + 1 + 1 < n ∧
          PriorityQueue.Less h (2 * i + 1 + 1) (2 * i + 1) = true
          then 2 * i + 1 + 1 else 2 * i + 1 := ⟨_, rfl⟩
      rw [← hj]
      have hjn : j < n := by
        rw [hj]; split
        · rename_i hc; exact hc.1
        · omega
      have hjc : j = 2 * i + 1 ∨ j = 2 * i + 2 := by
        rw [hj]; split <;> omega
      have hmin1 : key h j ≤ key h (2 * i + 1) := by
        rw [hj]; split
        · rename_i hc; exact le_of_lt ((Less_iff _ _ _).1 hc.2)
        · exact le_refl _
      have hmin2 : 2 * i + 2 < n → key h j ≤ key h (2 * i + 2) := by
        intro h2
        rw [hj]; split
        · exact le_refl _
        · rename_i hc
          have : ¬ key h (2 * i + 1 + 1) < key h (2 * i + 1) := by
            rw [← Less_iff]; intro hl; exact hc ⟨h2, hl⟩
          exact not_lt.1 this
      have hchild : ∀ c, c < n → 0 < c → (c - 1) / 2 = i → key h j ≤ key h c := by
        intro c hc hc0 hci
        have : c = 2 * i + 1 ∨ c = 2 * i + 2 := by omega
        rcases this with rfl | rfl
        · exact hmin1
        · exact hmin2 hc
      split
      · rename_i hless
        have hle : key h i ≤ key h j := by
          have : ¬ key h j < key h i := by
            rw [← Less_iff]; intro hl; simp [hl] at hless
          exact not_lt.1 this
        intro c hc hc0 hkc
        by_cases hci : (c - 1) / 2 = i
        · rw [hci]; exact le_trans hle (hchild c hc hc0 hci)
        · exact hpre.1 c hc hc0 hkc hci
      · rename_i hless
        have hlt : key h j < key h i := by
          rw [← Less_iff]
          cases hb : PriorityQueue.Less h j i
          · simp [hb] at hless
          · rfl
        have hi' : i < h.length := by omega
        have hj' : j < h.length := by omega
        apply ih (PriorityQueue.Swap h i j) j n k (by rw [length_Swap]; exact hn)
          (by omega) (by omega)
        constructor
        · intro c hc hc0 hkc hcj
          rw [key_Swap h i j _ hi' hj', key_Swap h i j _ hi' hj']
          by_cases hci : (c - 1) / 2 = i
          · rw [if_neg (by omega), if_pos hci]
            by_cases hcj2 : c = j
            · rw [if_pos hcj2]; exact le_of_lt hlt
            · rw [if_neg hcj2, if_neg (by omega)]
              exact hchild c hc hc0 hci
          · rw [if_neg hcj, if_neg hci]
            by_cases hc2 : c = i
            · rw [if_neg (by omega), if_pos hc2]
              subst hc2
              exact hpre.2 j hjn (by omega) (by omega) hc0 hkc
            · rw [if_neg (by omega), if_neg hc2]
              exact hpre.1 c hc hc0 hkc hci
        · intro c hc hc0 hcj hj0 hkj
          rw [key_Swap h i j _ hi' hj', key_Swap h i j _ hi' hj']
          have e : (j - 1) / 2 = i := by omega
          rw [e, if_neg (by omega), if_pos rfl, if_neg (by omega), if_neg (by omega)]
          have := hpre.1 c hc hc0 (by omega) (by omega)
          rw [hcj] at this
          exact this

theorem up_perm : ∀ (fuel : Nat) (h : PriorityQueue) (j : Nat), j < h.length →
    (heap.up fuel h j).Perm h ∧ (heap.up fuel h j).length = h.length := by
  intro fuel
  induction fuel with
  | zero => intro h j _; exact ⟨List.Perm.refl _, rfl⟩
  | succ fuel ih =>
    intro h j hj
    unfold heap.up
    simp only
    split
    · exact ⟨List.Perm.refl _, rfl⟩
    · have hi : (j - 1) / 2 < h.length := by omega
      have hs := ih (PriorityQueue.Swap h ((j - 1) / 2) j) ((j - 1) / 2)
        (by rw [length_Swap]; exact hi)
      rw [length_Swap] at hs
      exact ⟨hs.1.trans (Swap_perm h _ j hi hj), hs.2⟩

theorem up_heap : ∀ (fuel : Nat) (h : PriorityQueue) (j : Nat), j < h.length →
    j ≤ fuel → HeapExceptUp h j → IsHeap (heap.up fuel h j) := by
  intro fuel
  induction fuel with
  | zero =>
    intro h j _ hf hpre c hc hc0 _
    unfold heap.up at hc ⊢
    exact hpre.1 c hc hc0 (by omega)
  | succ fuel ih =>
    intro h j hj hf hpre
    unfold heap.up
    simp only
    split
    · rename_i hcond
      intro c hc hc0 _
      by_cases hcj : c = j
      · subst hcj
        rcases hcond with h1 | h2
        · omega
        · have : ¬ key h c < key h ((c - 1) / 2) := by
            rw [← Less_iff]; intro hl; simp [hl] at h2
          exact not_lt.1 this
      · exact hpre.1 c hc hc0 hcj
    · rename_i hcond
      have hij : (j - 1) / 2 ≠ j := fun e => hcond (Or.inl e)
      have hlt : key h j < key h ((j - 1) / 2) := by
        rw [← Less_iff]
        cases hb : PriorityQueue.Less h j ((j - 1) / 2)
        · exact absurd (Or.inr (by simp [hb])) hcond
        · rfl
      obtain ⟨i, hi⟩ : ∃ i, i = (j - 1) / 2 := ⟨_, rfl⟩
      rw [← hi] at hij hlt ⊢
      have hi' : i < h.length := by omega
      apply ih (PriorityQueue.Swap h i j) i (by rw [length_Swap]; exact hi') (by omega)
      constructor
      · intro c hc hc0 hci
        rw [length_Swap] at hc
        rw [key_Swap h i j _ hi' hj, key_Swap h i j _ hi' hj]
        by_cases hcj : c = j
        · subst hcj
          rw [← hi, if_neg hij, if_pos rfl, if_pos rfl]
          exact le_of_lt hlt
        · rw [if_neg hcj, if_neg hci]
          by_cases hp1 : (c - 1) / 2 = j
          · rw [if_pos hp1]
            have := hpre.2 c hc hc0 hp1 (by omega)
            rw [← hi] at this
            exact this
          · rw [if_neg hp1]
            by_cases hp2 : (c - 1) / 2 = i
            · rw [if_pos hp2]
              have := hpre.1 c hc hc0 hcj
              rw [hp2] at this
              exact le_trans (le_of_lt hlt) this
            · rw [if_neg hp2]
              exact hpre.1 c hc hc0 hcj
      · intro c hc hc0 hci hi0
        rw [length_Swap] at hc
        rw [key_Swap h i j _ hi' hj, key_Swap h i j _ hi' hj]
        rw [if_neg (by omega), if_neg (by omega)]
        have h1 := hpre.1 i hi' hi0 (by omega)
        by_cases hcj : c = j
        · rw [if_pos hcj]; exact h1
        · rw [if_neg hcj, if_neg (by omega)]
          have h2 := hpre.1 c hc hc0 hcj
          rw [hci] at h2
          exact le_trans h1 h2

theorem up_fuel : ∀ (fuel extra : Nat) (h : PriorityQueue) (j : Nat), j ≤ fuel →
    heap.up (fuel + extra) h j = heap.up fuel h j := by
  intro fuel
  induction fuel with
  | zero =>
    intro extra h j hj
    cases extra with
    | zero => rfl
    | succ e =>
      have : j = 0 := by omega
      subst this
      simp [heap.up]
  | succ fuel ih =>
    intro extra h j hj
    rw [show fuel + 1 + extra = (fuel + extra) + 1 by omega]
    unfold heap.up
    simp only
    split
    · rfl
    · exact ih extra _ _ (by omega)

theorem down_fuel : ∀ (fuel extra : Nat) (h : PriorityQueue) (i n : Nat), n ≤ i + fuel →
    heap.down (fuel + extra) h i n = heap.down fuel h i n := by
  intro fuel
  induction fuel with
  | zero =>
    intro extra h i n hn
    cases extra with
    | zero => rfl
    | succ e =>
      simp only [Nat.zero_add]
      unfold heap.down
      simp only
      rw [if_pos (by omega)]
  | succ fuel ih =>
    intro extra h i n hn
    rw [show fuel + 1 + extra = (fuel + extra) + 1 by omega]
    unfold heap.down
    simp only
    split
    · rfl
    · obtain ⟨j, hj⟩ : ∃ j, j = if 2 * i + 1 + 1 < n ∧
          PriorityQueue.Less h (2 * i + 1 + 1) (2 * i + 1) = true
          then 2 * i + 1 + 1 else 2 * i + 1 := ⟨_, rfl⟩
      rw [← hj]
      have hij : i < j := by
        rw [hj]; split <;> omega
      split
      · rfl
      · exact ih extra _ _ _ (by omega)

/-! ### `heap.Init`, `heap.Pop` and `heap.Push` -/

theorem initLoop_spec : ∀ (k : Nat) (h : PriorityQueue) (n : Nat), n ≤ h.length →
    IsHeapFrom h n k →
    (heap.initLoop k h n).Perm h ∧ (heap.initLoop k h n).length = h.length
      ∧ IsHeapFrom (heap.initLoop k h n) n 0 := by
  intro k
  induction k with
  | zero => intro h n _ hh; exact ⟨List.Perm.refl _, rfl, hh⟩
  | succ k ih =>
    intro h n hn hh
    unfold heap.initLoop
    have hp := down_perm n h k n hn
    have hd : IsHeapFrom (heap.down n h k n) n k := by
      apply down_heap n h k n k hn (by omega) (le_refl _)
      constructor
      · intro j hj hj0 hkj hne
        exact hh j hj hj0 (by omega)
      · intro c _ _ _ hk0 hkk
        omega
    have hs := ih (heap.down n h k n) n (by rw [hp.2.1]; exact hn) hd
    exact ⟨hs.1.trans hp.1, hs.2.1.trans hp.2.1, hs.2.2⟩

theorem Init_spec (h : PriorityQueue) :
    (heap.Init h).Perm h ∧ IsHeap (heap.Init h) := by
  unfold heap.Init PriorityQueue.Len
  have hs := initLoop_spec (h.length / 2) h h.length (le_refl _)
    (by intro j hj hj0 hk; omega)
  refine ⟨hs.1, ?_⟩
  unfold IsHeap
  rw [hs.2.1]
  exact hs.2.2

theorem root_min (h : PriorityQueue) (hh : IsHeap h) :
    ∀ m, m < h.length → key h 0 ≤ key h m := by
  intro m
  induction m using Nat.strong_induction_on with
  | _ m ih =>
    intro hm
    by_cases h0 : m = 0
    · subst h0; exact le_refl _
    · have h1 := ih ((m - 1) / 2) (by omega) (by omega)
      exact le_trans h1 (hh m hm (by omega) (Nat.zero_le _))

theorem PriorityQueue.Pop_eq (pq : PriorityQueue) (hne : 0 < pq.length) :
    PriorityQueue.Pop pq
      = .ok (pq.getD (pq.length - 1) Node.nil, pq.take (pq.length - 1)) := by
  cases pq with
  | nil => simp at hne
  | cons a t => rfl

theorem take_append_last (l : PriorityQueue) (hne : 0 < l.length) :
    l.take (l.length - 1) ++ [l.getD (l.length - 1) Node.nil] = l := by
  have h1 : l.length - 1 < l.length := by omega
  have e : l.getD (l.length - 1) Node.nil = l[l.length - 1] := by simp [h1]
  rw [e]
  apply List.ext_getElem
  · simp; omega
  · intro i h2 h3
    by_cases hi : i < l.length - 1
    · rw [List.getElem_append_left (by simp; omega)]
      simp
    · have : i = l.length - 1 := by simp at h2; omega
      subst this
      rw [List.getElem_append_right (by simp)]
      simp

theorem Pop_spec (h : PriorityQueue) (hne : 0 < h.length) (hh : IsHeap h) :
    ∃ x rest, heap.Pop h = .ok (x, rest) ∧ h.Perm (x :: rest) ∧ IsHeap rest
      ∧ ∀ y ∈ rest, x.freq ≤ y.freq := by
  obtain ⟨n, hn⟩ : ∃ n, n = h.length - 1 := ⟨_, rfl⟩
  have hlen : h.length = n + 1 := by omega
  have hpop : heap.Pop h
      = PriorityQueue.Pop (heap.down n (PriorityQueue.Swap h 0 n) 0 n) := by
    cases h with
    | nil => simp at hne
    | cons a t => simp only [heap.Pop, PriorityQueue.Len, hn]
  have hsl : (PriorityQueue.Swap h 0 n).length = h.length := length_Swap h 0 n
  have hp := down_perm n (PriorityQueue.Swap h 0 n) 0 n (by omega)
  obtain ⟨h2, hh2⟩ : ∃ h2, h2 = heap.down n (PriorityQueue.Swap h 0 n) 0 n := ⟨_, rfl⟩
  rw [← hh2] at hp hpop
  have hl2 : h2.length = n + 1 := by rw [hp.2.1, hsl, hlen]
  have hperm : h2.Perm h := hp.1.trans (Swap_perm h 0 n (by omega) (by omega))
  have hx : h2.getD n Node.nil = h.getD 0 Node.nil := by
    rw [hp.2.2 n (le_refl _), getD_Swap h 0 n n (by omega) (by omega), if_pos rfl]
  have hheap2 : IsHeapFrom h2 n 0 := by
    rw [hh2]
    apply down_heap n _ 0 n 0 (by omega) (by omega) (le_refl _)
    constructor
    · intro j hj hj0 _ hpar
      rw [key_Swap h 0 n _ (by omega) (by omega), key_Swap h 0 n _ (by omega) (by omega)]
      rw [if_neg (by omega), if_neg hpar, if_neg (by omega), if_neg (by omega)]
      exact hh j (by omega) hj0 (Nat.zero_le _)
    · intro c _ _ _ h0
      omega
  rw [PriorityQueue.Pop_eq h2 (by omega)] at hpop
  have e1 : h2.length - 1 = n := by omega
  rw [e1] at hpop
  refine ⟨_, _, hpop, ?_, ?_, ?_⟩
  · have := take_append_last h2 (by omega)
    rw [e1] at this
    have hp2 : (h2.getD n Node.nil :: h2.take n).Perm h2 := by
      rw [← List.singleton_append]
      nth_rewrite 3 [← this]
      exact List.perm_append_comm
    exact (hp2.trans hperm).symm
  · intro j hj hj0 _
    rw [List.length_take, hl2] at hj
    have hj' : j < n := by omega
    have e : ∀ m, m < n → key (h2.take n) m = key h2 m := by
      intro m hm
      unfold key
      simp [List.getElem?_take, hm]
    rw [e j hj', e _ (by omega)]
    exact hheap2 j hj' hj0 (Nat.zero_le _)
  · intro y hy
    have hy2 : y ∈ h := hperm.subset (List.mem_of_mem_take hy)
    obtain ⟨m, hm, rfl⟩ := List.getElem_of_mem hy2
    rw [hx]
    have := root_min h hh m hm
    unfold key at this
    simpa [hm, hne] using this

theorem Pop_length (h : PriorityQueue) (x : Node) (rest : PriorityQueue)
    (hp : h.Perm (x :: rest)) : h.length = rest.length + 1 := by
  rw [hp.length_eq]; rfl

theorem Push_spec (h : PriorityQueue) (x : Node) (hh : IsHeap h) :
    (heap.Push h x).Perm (x :: h) ∧ IsHeap (heap.Push h x) := by
  unfold heap.Push PriorityQueue.Push PriorityQueue.Len
  simp only [List.length_append, List.length_singleton, Nat.add_sub_cancel]
  have hl : h.length < (h ++ [x]).length := by simp
  constructor
  · exact (up_perm _ (h ++ [x]) h.length hl).1.trans (List.perm_append_singleton x h)
  · apply up_heap _ _ _ hl (by omega)
    constructor
    · intro c hc hc0 hne
      simp only [List.length_append, List.length_singleton] at hc
      have e : ∀ m, m < h.length → key (h ++ [x]) m = key h m := by
        intro m hm
        unfold key
        simp [List.getElem?_append_left hm]
      rw [e c (by omega), e _ (by omega)]
      exact hh c (by omega) hc0 (Nat.zero_le _)
    · intro c hc hc0 hpar _
      simp only [List.length_append, List.length_singleton] at hc
      omega

/-! ### The merge loop of `BuildHuffmanTree` -/

theorem Huff_perm (q q2 : List Node) (t : Node) (hp : q.Perm q2) (h : Huff q t) :
    Huff q2 t := by
  match h with
  | .one _ =>
    have : q2 = [t] := List.perm_singleton.1 hp.symm
    rw [this]
    exact Huff.one t
  | .merge _ l r rest _ hq hl hr hrec =>
    exact Huff.merge q2 l r rest t (hp.symm.trans hq) hl hr hrec

theorem Pop_ok_length (h : PriorityQueue) (x : Node) (rest : PriorityQueue)
    (hpop : heap.Pop h = .ok (x, rest)) : rest.length + 1 = h.length := by
  cases h with
  | nil => simp [heap.Pop] at hpop
  | cons a t =>
    simp only [heap.Pop, PriorityQueue.Len, List.length_cons, Nat.add_sub_cancel] at hpop
    have hp := down_perm t.length (PriorityQueue.Swap (a :: t) 0 t.length) 0 t.length
      (by rw [length_Swap]; simp)
    rw [length_Swap] at hp
    rw [PriorityQueue.Pop_eq _ (by rw [hp.2.1]; simp)] at hpop
    simp only [Except.ok.injEq, Prod.mk.injEq] at hpop
    rw [← hpop.2, List.length_take, hp.2.1]
    simp

theorem Push_length (h : PriorityQueue) (x : Node) :
    (heap.Push h x).length = h.length + 1 := by
  unfold heap.Push PriorityQueue.Push PriorityQueue.Len
  simp only [List.length_append, List.length_singleton, Nat.add_sub_cancel]
  rw [(up_perm _ (h ++ [x]) h.length (by simp)).2]
  simp

theorem loop_fuel : ∀ (fuel extra : Nat) (pq : PriorityQueue), pq.length ≤ fuel + 1 →
    BuildHuffmanTree.loop (fuel + extra) pq = BuildHuffmanTree.loop fuel pq := by
  intro fuel
  induction fuel with
  | zero =>
    intro extra pq hlen
    cases extra with
    | zero => rfl
    | succ e =>
      simp only [Nat.zero_add]
      unfold BuildHuffmanTree.loop PriorityQueue.Len
      rw [if_neg (by omega)]
  | succ fuel ih =>
    intro extra pq hlen
    rw [show fuel + 1 + extra = (fuel + extra) + 1 by omega]
    unfold BuildHuffmanTree.loop
    split
    · rcases h1 : heap.Pop pq with e | ⟨l, pq1⟩
      · rfl
      · simp only
        rcases h2 : heap.Pop pq1 with e | ⟨r, pq2⟩
        · rfl
        · simp only
          apply ih
          rw [Push_length]
          have := Pop_ok_length _ _ _ h1
          have := Pop_ok_length _ _ _ h2
          omega
    · rfl

theorem loop_spec : ∀ (fuel : Nat) (pq : PriorityQueue), IsHeap pq → 0 < pq.length →
    pq.length ≤ fuel + 1 →
    ∃ t, BuildHuffmanTree.loop fuel pq = .ok [t] ∧ Huff pq t := by
  intro fuel
  induction fuel with
  | zero =>
    intro pq _ h0 h1
    match pq, h0, h1 with
    | [t], _, _ => exact ⟨t, rfl, Huff.one t⟩
    | _ :: _ :: _, _, h1 => simp at h1
  | succ fuel ih =>
    intro pq hh h0 h1
    unfold BuildHuffmanTree.loop PriorityQueue.Len
    split
    · rename_i hgt
      obtain ⟨l, pq1, e1, p1, hh1, m1⟩ := Pop_spec pq h0 hh
      have l1 := Pop_length _ _ _ p1
      obtain ⟨r, pq2, e2, p2, hh2, m2⟩ := Pop_spec pq1 (by omega) hh1
      have l2 := Pop_length _ _ _ p2
      rw [e1]
      simp only
      rw [e2]
      simp only
      have hps := Push_spec pq2 (Node.mk 0 (wrap (l.freq + r.freq)) l r) hh2
      obtain ⟨t, et, ht⟩ := ih _ hps.2 (by rw [Push_length]; omega)
        (by rw [Push_length]; omega)
      refine ⟨t, et, ?_⟩
      apply Huff.merge pq l r pq2 t (p1.trans (List.Perm.cons l p2))
      · intro y hy
        exact m1 y (p2.symm.subset hy)
      · exact m2
      · exact Huff_perm _ _ t hps.1 ht
    · match pq, h0 with
      | [t], _ => exact ⟨t, rfl, Huff.one t⟩
      | _ :: _ :: _, _ => rename_i hle; simp at hle

theorem BuildHuffmanTree_spec (freq : List (Int × Int)) (hne : freq ≠ []) :
    ∃ t, BuildHuffmanTree freq = .ok t ∧ Huff (freq.map leafOf) t := by
  unfold BuildHuffmanTree PriorityQueue.Len
  have hi := Init_spec (freq.map (fun e => Node.mk e.1 e.2 Node.nil Node.nil))
  have hlen : 0 < (heap.Init (freq.map (fun e => Node.mk e.1 e.2 Node.nil Node.nil))).length := by
    rw [hi.1.length_eq, List.length_map]
    exact List.length_pos.2 hne
  obtain ⟨t, et, ht⟩ := loop_spec _ _ hi.2 hlen (Nat.le_succ _)
  simp only
  rw [et]
  exact ⟨t, rfl, Huff_perm _ _ t hi.1 ht⟩

/-! ### Invariants of the merge loop: shape, leaves, frequencies -/

theorem wrap_add_wrap (a b : Int) : wrap (wrap a + wrap b) = wrap (a + b) := by
  unfold wrap; omega

theorem wrap_of_isInt64 (a : Int) (h : isInt64 a) : wrap a = a := by
  unfold isInt64 at h; unfold wrap; omega

theorem isInt64_wrap (a : Int) : isInt64 (wrap a) := by
  unfold isInt64 wrap; omega

theorem leaves_parentOf (l r : Node) (hl : l.isNil = false) :
    (parentOf l r).leaves = l.leaves ++ r.leaves := by
  simp [parentOf, Node.leaves, hl]

theorem forestLeaves_perm (q q2 : List Node) (hp : q.Perm q2) :
    (forestLeaves q).Perm (forestLeaves q2) := by
  induction hp with
  | nil => exact List.Perm.refl _
  | cons x _ ih => exact List.Perm.append_left _ ih
  | swap x y l =>
    simp only [forestLeaves, ← List.append_assoc]
    exact List.Perm.append_right _ List.perm_append_comm
  | trans _ _ ih1 ih2 => exact ih1.trans ih2

theorem forestLeaves_map_leafOf (freq : List (Int × Int)) :
    forestLeaves (freq.map leafOf) = freq := by
  induction freq with
  | nil => rfl
  | cons e freq ih => simp [forestLeaves, leafOf, Node.leaves, Node.isNil, ih]

theorem Huff_nonnil_shape (q : List Node) (t : Node) (h : Huff q t) :
    (∀ x ∈ q, x.isNil = false ∧ x.shapeOk = true) → t.isNil = false ∧ t.shapeOk = true := by
  induction h with
  | one t => intro hq; exact hq t (List.mem_singleton.2 rfl)
  | merge q l r rest t hp _ _ _ ih =>
    intro hq
    apply ih
    have hl := hq l (hp.symm.subset (by simp))
    have hr := hq r (hp.symm.subset (by simp))
    intro x hx
    rcases List.mem_cons.1 hx with rfl | hx
    · refine ⟨rfl, ?_⟩
      show ((l.isNil == r.isNil) && l.shapeOk && r.shapeOk) = true
      rw [hl.1, hl.2, hr.1, hr.2]
      rfl
    · exact hq x (hp.symm.subset (by simp [hx]))

theorem Huff_leaves (q : List Node) (t : Node) (h : Huff q t) :
    (∀ x ∈ q, x.isNil = false) → t.leaves.Perm (forestLeaves q) := by
  induction h with
  | one t => intro _; simp [forestLeaves]
  | merge q l r rest t hp _ _ _ ih =>
    intro hq
    have hl := hq l (hp.symm.subset (by simp))
    have h1 : t.leaves.Perm (forestLeaves (parentOf l r :: rest)) := by
      apply ih
      intro x hx
      rcases List.mem_cons.1 hx with rfl | hx
      · rfl
      · exact hq x (hp.symm.subset (by simp [hx]))
    refine h1.trans (List.Perm.trans ?_ (forestLeaves_perm _ _ hp.symm))
    simp only [forestLeaves, leaves_parentOf l r hl, List.append_assoc]
    exact List.Perm.refl _

theorem Huff_freq (q : List Node) (t : Node) (h : Huff q t) :
    (∀ x ∈ q, x.isNil = false ∧ x.freq = wrap x.leafSum) → t.freq = wrap t.leafSum := by
  induction h with
  | one t => intro hq; exact (hq t (List.mem_singleton.2 rfl)).2
  | merge q l r rest t hp _ _ _ ih =>
    intro hq
    apply ih
    have hl := hq l (hp.symm.subset (by simp))
    have hr := hq r (hp.symm.subset (by simp))
    intro x hx
    rcases List.mem_cons.1 hx with rfl | hx
    · refine ⟨rfl, ?_⟩
      unfold Node.leafSum
      rw [leaves_parentOf l r hl.1, List.map_append, List.sum_append]
      show wrap (l.freq + r.freq) = _
      rw [hl.2, hr.2, wrap_add_wrap]
      rfl
    · exact hq x (hp.symm.subset (by simp [hx]))

/-! ### The frequency table of `Encode` -/

theorem freqGet_freqIncr (m : List (Int × Int)) (c k : Int) :
    freqGet (freqIncr m c) k = if k = c then wrap (freqGet m c + 1) else freqGet m k := by
  induction m with
  | nil =>
    unfold freqIncr freqGet
    by_cases h : k = c
    · simp [h, freqGet]
    · simp [h, Ne.symm h, freqGet]
  | cons e m ih =>
    obtain ⟨a, n⟩ := e
    unfold freqIncr
    by_cases h1 : a = c
    · rw [if_pos h1]
      unfold freqGet
      by_cases h : k = c
      · simp [h, h1]
      · have : ¬ a = k := fun e => h (e ▸ h1)
        simp [h, h1, this, Ne.symm h]
    · rw [if_neg h1]
      unfold freqGet
      rw [ih]
      by_cases h : k = c
      · simp [h, h1]
      · by_cases h2 : a = k
        · simp [h2, h]
        · simp [h, h2]

theorem keys_freqIncr (m : List (Int × Int)) (c : Int) :
    (freqIncr m c).map Prod.fst
      = if c ∈ m.map Prod.fst then m.map Prod.fst else m.map Prod.fst ++ [c] := by
  induction m with
  | nil => simp [freqIncr]
  | cons e m ih =>
    obtain ⟨a, n⟩ := e
    unfold freqIncr
    by_cases h1 : a = c
    · simp [h1]
    · rw [if_neg h1, List.map_cons, ih]
      by_cases h2 : c ∈ m.map Prod.fst
      · simp only [h2, if_true, List.map_cons, List.mem_cons, or_true]
      · have : ¬ c ∈ ((a, n) :: m).map Prod.fst := by
          simp only [List.map_cons, List.mem_cons, not_or]
          exact ⟨Ne.symm h1, h2⟩
        rw [if_neg h2, if_neg this]
        rfl

theorem sum_freqIncr (m : List (Int × Int)) (c : Int) :
    ((freqIncr m c).map Prod.snd).sum
      = (m.map Prod.snd).sum - freqGet m c + wrap (freqGet m c + 1) := by
  induction m with
  | nil => simp [freqIncr, freqGet]
  | cons e m ih =>
    obtain ⟨a, n⟩ := e
    unfold freqIncr
    by_cases h1 : a = c
    · simp only [h1, if_true, List.map_cons, List.sum_cons, freqGet]
      omega
    · simp only [h1, if_false, List.map_cons, List.sum_cons, freqGet, ih]
      omega

theorem mem_iff_freqGet (m : List (Int × Int)) (hnd : (m.map Prod.fst).Nodup)
    (k n : Int) : (k, n) ∈ m ↔ k ∈ m.map Prod.fst ∧ freqGet m k = n := by
  induction m with
  | nil => simp
  | cons e m ih =>
    obtain ⟨a, b⟩ := e
    rw [List.map_cons, List.nodup_cons] at hnd
    unfold freqGet
    by_cases h : a = k
    · subst h
      rw [if_pos rfl]
      constructor
      · intro h0
        rcases List.mem_cons.1 h0 with h1 | h1
        · simp only [Prod.mk.injEq, true_and] at h1
          exact ⟨List.mem_cons_self _ _, h1.symm⟩
        · exact absurd (List.mem_map.2 ⟨(a, n), h1, rfl⟩) hnd.1
      · rintro ⟨_, h1⟩
        rw [h1]
        exact List.mem_cons_self _ _
    · simp only [List.mem_cons, Prod.mk.injEq, h, if_false, List.map_cons, Ne.symm h,
        false_and, false_or, ih hnd.2]

theorem countFreq_append (s : List Char) (c : Char) :
    countFreq (s ++ [c]) = freqIncr (countFreq s) (rune c) := by
  simp [countFreq, List.foldl_append]

theorem countFreq_keys (s : List Char) :
    ((countFreq s).map Prod.fst).Nodup
      ∧ ∀ k, k ∈ (countFreq s).map Prod.fst ↔ k ∈ s.map rune := by
  induction s using List.reverseRecOn with
  | nil => simp [countFreq]
  | append_singleton s c ih =>
    rw [countFreq_append, keys_freqIncr]
    by_cases h : rune c ∈ (countFreq s).map Prod.fst
    · rw [if_pos h]
      refine ⟨ih.1, fun k => ?_⟩
      rw [ih.2, List.map_append, List.mem_append]
      constructor
      · exact Or.inl
      · rintro (h1 | h1)
        · exact h1
        · simp only [List.map_cons, List.map_nil, List.mem_singleton] at h1
          rw [h1]
          exact (ih.2 _).1 h
    · rw [if_neg h]
      constructor
      · rw [List.nodup_append]
        refine ⟨ih.1, List.nodup_singleton _, ?_⟩
        intro a ha hb
        rw [List.mem_singleton] at hb
        exact h (hb ▸ ha)
      · intro k
        rw [List.mem_append, ih.2, List.map_append, List.mem_append]
        rfl

theorem countFreq_get (s : List Char) (hlen : (s.length : Int) < 9223372036854775808)
    (k : Int) : freqGet (countFreq s) k = ((s.map rune).count k : Int) := by
  induction s using List.reverseRecOn with
  | nil => simp [countFreq, freqGet]
  | append_singleton s c ih =>
    simp only [List.length_append, List.length_singleton, Nat.cast_add, Nat.cast_one] at hlen
    rw [countFreq_append, freqGet_freqIncr, List.map_append, List.count_append]
    have hc : ∀ x, ((s.map rune).count x : Int) ≤ s.length := by
      intro x
      have := List.count_le_length x (s.map rune)
      rw [List.length_map] at this
      exact_mod_cast this
    by_cases h : k = rune c
    · subst h
      rw [if_pos rfl, ih (by omega)]
      have := hc (rune c)
      simp only [List.map_cons, List.map_nil, List.count_singleton_self, Nat.cast_add,
        Nat.cast_one]
      unfold wrap
      omega
    · rw [if_neg h, ih (by omega)]
      have : List.count k (List.map rune [c]) = 0 := by
        simp [List.count_eq_zero, h]
      rw [this]
      simp

theorem countFreq_sum (s : List Char) (hlen : (s.length : Int) < 9223372036854775808) :
    ((countFreq s).map Prod.snd).sum = (s.length : Int) := by
  induction s using List.reverseRecOn with
  | nil => simp [countFreq]
  | append_singleton s c ih =>
    have hg := countFreq_get s
    simp only [List.length_append, List.length_singleton, Nat.cast_add, Nat.cast_one]
      at hlen ⊢
    rw [countFreq_append, sum_freqIncr, ih (by omega), hg (by omega)]
    have := List.count_le_length (rune c) (s.map rune)
    rw [List.length_map] at this
    have : ((s.map rune).count (rune c) : Int) ≤ s.length := by exact_mod_cast this
    unfold wrap
    omega

/-! ### Shape of the tree and conservation of the frequencies -/

theorem BuildHuffmanTree_tree (freq : List (Int × Int)) (hne : freq ≠ []) :
    ∃ t, BuildHuffmanTree freq = .ok t ∧ Huff (freq.map leafOf) t
      ∧ t.isNil = false ∧ t.shapeOk = true ∧ t.leaves.Perm freq := by
  obtain ⟨t, e, h⟩ := BuildHuffmanTree_spec freq hne
  have hq : ∀ x ∈ freq.map leafOf, x.isNil = false ∧ x.shapeOk = true := by
    intro x hx
    obtain ⟨e, _, rfl⟩ := List.mem_map.1 hx
    exact ⟨rfl, rfl⟩
  have h1 := Huff_nonnil_shape _ t h hq
  have h2 := Huff_leaves _ t h (fun x hx => (hq x hx).1)
  rw [forestLeaves_map_leafOf] at h2
  exact ⟨t, e, h, h1.1, h1.2, h2⟩

/-- Claim C7.  Tree shape: for every non-empty frequency table, in whatever
order it is iterated, `BuildHuffmanTree` returns a tree in which every node has
either no child or two children. -/
theorem C7_tree_shape (freq : List (Int × Int)) (hne : freq ≠ []) :
    ∃ t, BuildHuffmanTree freq = .ok t ∧ t.isNil = false ∧ t.shapeOk = true := by
  obtain ⟨t, e, _, h1, h2, _⟩ := BuildHuffmanTree_tree freq hne
  exact ⟨t, e, h1, h2⟩

theorem C7_tree_shape_witness :
    ∃ t, BuildHuffmanTree [(97, 3), (98, 1), (99, 2)] = .ok t ∧ t.isNil = false
      ∧ t.shapeOk = true :=
  C7_tree_shape [(97, 3), (98, 1), (99, 2)] (by decide)

/-- Claim C6, as stated, fails: on the table `{a: 2^62, b: 2^62}` the sum of the
counts is `2^63`, which no `int` holds; the root's `freq` is `-2^63`. -/
theorem C6_counterexample :
    ∃ t, BuildHuffmanTree [(97, 4611686018427387904), (98, 4611686018427387904)] = .ok t
      ∧ t.freq = -9223372036854775808
      ∧ t.freq ≠ (([(97, 4611686018427387904), (98, 4611686018427387904)] :
          List (Int × Int)).map Prod.snd).sum :=
  ⟨_, rfl, rfl, by decide⟩

/-- Claim C6, amended.  Frequency conservation: for every non-empty frequency
table of `int` counts, in whatever order it is iterated, the `freq` field of
the root returned by `BuildHuffmanTree` is the sum of all counts reduced to the
range of `int`; it is the sum itself whenever the sum is in that range, and for
the table counted from an input string `s` it is the number of symbols in
`s`. -/
theorem C6_frequency_conservation (freq : List (Int × Int)) (hne : freq ≠ [])
    (hint : ∀ e ∈ freq, isInt64 e.2) :
    ∃ t, BuildHuffmanTree freq = .ok t
      ∧ t.freq = wrap (freq.map Prod.snd).sum
      ∧ (isInt64 (freq.map Prod.snd).sum → t.freq = (freq.map Prod.snd).sum)
      ∧ ∀ s : List Char, (s.length : Int) < 9223372036854775808 →
          freq.Perm (countFreq s) → t.freq = (s.length : Int) := by
  obtain ⟨t, e, h, _, _, hl⟩ := BuildHuffmanTree_tree freq hne
  have hq : ∀ x ∈ freq.map leafOf, x.isNil = false ∧ x.freq = wrap x.leafSum := by
    intro x hx
    obtain ⟨e, he, rfl⟩ := List.mem_map.1 hx
    refine ⟨rfl, ?_⟩
    show e.2 = wrap (e.2 + 0)
    rw [add_zero, wrap_of_isInt64 _ (hint e he)]
  have hf := Huff_freq _ t h hq
  have hs : t.leafSum = (freq.map Prod.snd).sum := (hl.map Prod.snd).sum_eq
  rw [hs] at hf
  refine ⟨t, e, hf, fun h64 => by rw [hf, wrap_of_isInt64 _ h64], ?_⟩
  intro s hlen hp
  have e2 : (freq.map Prod.snd).sum = (s.length : Int) := by
    rw [(hp.map Prod.snd).sum_eq, countFreq_sum s hlen]
  rw [hf, e2]
  apply wrap_of_isInt64
  unfold isInt64
  omega

theorem C6_frequency_conservation_witness :
    ∃ t, BuildHuffmanTree [(97, 3), (98, 1)] = .ok t ∧ t.freq = 4 :=
  (C6_frequency_conservation [(97, 3), (98, 1)] (by decide)
    (by intro e he; simp at he; rcases he with rfl | rfl <;> (unfold isInt64; decide))).imp
    (fun _ h => ⟨h.1, h.2.2.2 ['a', 'a', 'a', 'b'] (by decide) (List.Perm.refl _)⟩)

/-! ### `Encode` and the round trip through `Decode` -/

theorem leafPaths_fst (t : Node) :
    (leafPaths t).map Prod.fst = t.leaves.map Prod.fst := by
  induction t with
  | nil => rfl
  | mk v f l r ihl ihr =>
    simp only [leafPaths, Node.leaves, List.map_append, List.map_map]
    rw [← ihl, ← ihr]
    congr 1
    · split <;> rfl

theorem foldl_append_eq (f : Char → List Char) (s : List Char) :
    ∀ acc : List Char, s.foldl (fun enc c => enc ++ f c) acc = acc ++ s.flatMap f := by
  induction s with
  | nil => intro acc; simp
  | cons c s ih => intro acc; simp [ih]

theorem rune_injective (a b : Char) (h : rune a = rune b) : a = b := by
  unfold rune at h
  have h2 : a.toNat = b.toNat := by exact_mod_cast h
  rw [← Char.ofNat_toNat a, ← Char.ofNat_toNat b, h2]

theorem runeToString_rune (c : Char) : runeToString (rune c) = [c] := by
  have hv : c.toNat < 55296 ∨ (57343 < c.toNat ∧ c.toNat < 1114112) := c.valid
  unfold runeToString rune
  rw [if_pos (by omega)]
  simp

/-- Facts about `Encode` shared by the theorems below: on a non-empty string it
returns, the tree it builds has the entries of the frequency table as leaves,
and the table of codes is the one `BuildCodes` fills from that tree. -/
theorem Encode_spec (range : List (Int × Int) → List (Int × Int)) (s : List Char)
    (hne : s ≠ []) (hr : (range (countFreq s)).Perm (countFreq s)) :
    ∃ root, BuildHuffmanTree (range (countFreq s)) = .ok root
      ∧ Huff ((range (countFreq s)).map leafOf) root
      ∧ root.isNil = false ∧ root.shapeOk = true
      ∧ root.leaves.Perm (countFreq s)
      ∧ Encode range s = .ok (s.flatMap
          (fun c => (BuildCodes root [] GoMap.empty).get (rune c)),
          BuildCodes root [] GoMap.empty) := by
  have hne2 : range (countFreq s) ≠ [] := by
    intro h0
    rw [h0] at hr
    have h1 : countFreq s = [] := List.Perm.eq_nil hr.symm
    have h2 := (countFreq_keys s).2
    rw [h1] at h2
    cases s with
    | nil => exact hne rfl
    | cons c s => exact absurd ((h2 (rune c)).2 (by simp)) (by simp)
  obtain ⟨t, e, h, h1, h2, hl⟩ := BuildHuffmanTree_tree _ hne2
  refine ⟨t, e, h, h1, h2, hl.trans hr, ?_⟩
  unfold Encode
  rw [e]
  simp only
  rw [foldl_append_eq]
  rfl

theorem Encode_keys (root : Node) (s : List Char) (hl : root.leaves.Perm (countFreq s))
    (k : Int) :
    (∃ w, (k, w) ∈ leafPaths root) ↔ k ∈ s.map rune := by
  rw [← (countFreq_keys s).2, ← (hl.map Prod.fst).mem_iff, ← leafPaths_fst]
  constructor
  · rintro ⟨w, hw⟩
    exact List.mem_map.2 ⟨(k, w), hw, rfl⟩
  · intro h
    obtain ⟨e, he, rfl⟩ := List.mem_map.1 h
    exact ⟨e.2, he⟩

theorem Encode_nodup (root : Node) (s : List Char) (hl : root.leaves.Perm (countFreq s)) :
    ((leafPaths root).map Prod.fst).Nodup := by
  rw [leafPaths_fst]
  exact (hl.map Prod.fst).nodup_iff.2 (countFreq_keys s).1

/-- Claim C5.  Encoder concatenation and coverage: for every non-empty input
string `s` and every iteration order, `Encode(s)` returns; the keys of the
code table are exactly the symbols that occur in `s`, so no lookup misses; and
the encoded stream is the concatenation, in input order, of `codes[c]` for the
symbols `c` of `s`. -/
theorem C5_encoder (range : List (Int × Int) → List (Int × Int)) (s : List Char)
    (hne : s ≠ []) (hr : (range (countFreq s)).Perm (countFreq s)) :
    ∃ encoded codes, Encode range s = .ok (encoded, codes)
      ∧ (∀ k, (∃ w, codes k = some w) ↔ k ∈ s.map rune)
      ∧ (∀ c ∈ s, ∃ w, codes (rune c) = some w)
      ∧ encoded = s.flatMap (fun c => codes.get (rune c)) := by
  obtain ⟨root, _, _, _, _, hl, he⟩ := Encode_spec range s hne hr
  have hk : ∀ k, (∃ w, BuildCodes root [] GoMap.empty k = some w) ↔ k ∈ s.map rune := by
    intro k
    rw [← Encode_keys root s hl k]
    constructor
    · rintro ⟨w, hw⟩
      exact ⟨w, (C4_aux root (Encode_nodup root s hl) k w).1 hw⟩
    · rintro ⟨w, hw⟩
      exact ⟨w, (C4_aux root (Encode_nodup root s hl) k w).2 hw⟩
  refine ⟨_, _, he, hk, ?_, rfl⟩
  intro c hc
  exact (hk (rune c)).2 (List.mem_map.2 ⟨c, hc, rfl⟩)

theorem C5_encoder_witness :
    ∃ encoded codes, Encode id ['a', 'b', 'a'] = .ok (encoded, codes)
      ∧ (∀ k, (∃ w, codes k = some w) ↔ k ∈ ['a', 'b', 'a'].map rune)
      ∧ (∀ c ∈ ['a', 'b', 'a'], ∃ w, codes (rune c) = some w)
      ∧ encoded = ['a', 'b', 'a'].flatMap (fun c => codes.get (rune c)) :=
  C5_encoder id ['a', 'b', 'a'] (by decide) (List.Perm.refl _)

theorem loop_cons_mk (root : Node) (bit : Char) (rest : List Char) (v f : Int)
    (l r : Node) (acc : List Char) (v1 f1 : Int) (l1 r1 : Node)
    (hc : (if bit = '0' then l else r) = Node.mk v1 f1 l1 r1) :
    Decode.loop root (bit :: rest) (Node.mk v f l r) acc
      = if (l1.isNil && r1.isNil) = true then
          Decode.loop root rest root (acc ++ runeToString v1)
        else Decode.loop root rest (Node.mk v1 f1 l1 r1) acc := by
  conv_lhs => unfold Decode.loop
  simp only [hc]

theorem decode_word (root : Node) (cur : Node) :
    ∀ (v : Int) (w : List Char), (v, w) ∈ leafPaths cur → cur.isLeaf = false →
      ∀ (rest acc : List Char),
        Decode.loop root (w ++ rest) cur acc
          = Decode.loop root rest root (acc ++ runeToString v) := by
  induction cur with
  | nil => intro v w h; simp [leafPaths] at h
  | mk v0 f l r ihl ihr =>
    intro v w hm hnl rest acc
    have hnl2 : (l.isNil && r.isNil) = false := hnl
    simp only [leafPaths, hnl2, Bool.false_eq_true, if_false, List.nil_append,
      List.mem_append, List.mem_map] at hm
    rcases hm with ⟨e, he, hev⟩ | ⟨e, he, hev⟩
    · simp only [Prod.mk.injEq] at hev
      obtain ⟨rfl, rfl⟩ := hev
      cases l with
      | nil => simp [leafPaths] at he
      | mk v1 f1 l1 r1 =>
        rw [List.cons_append]
        rw [loop_cons_mk root '0' _ v0 f _ r acc v1 f1 l1 r1 (if_pos rfl)]
        by_cases hleaf : (l1.isNil && r1.isNil) = true
        · rw [leafPaths_nil_of_leaf v1 f1 l1 r1 hleaf, List.mem_singleton] at he
          rw [if_pos hleaf, he]
          rfl
        · rw [if_neg hleaf]
          exact ihl e.1 e.2 he (by simpa [Node.isLeaf] using hleaf) rest acc
    · simp only [Prod.mk.injEq] at hev
      obtain ⟨rfl, rfl⟩ := hev
      cases r with
      | nil => simp [leafPaths] at he
      | mk v1 f1 l1 r1 =>
        rw [List.cons_append]
        rw [loop_cons_mk root '1' _ v0 f l _ acc v1 f1 l1 r1 (if_neg (by decide))]
        by_cases hleaf : (l1.isNil && r1.isNil) = true
        · rw [leafPaths_nil_of_leaf v1 f1 l1 r1 hleaf, List.mem_singleton] at he
          rw [if_pos hleaf, he]
          rfl
        · rw [if_neg hleaf]
          exact ihr e.1 e.2 he (by simpa [Node.isLeaf] using hleaf) rest acc

theorem decode_words (root : Node) (hroot : root.isLeaf = false)
    (code : Char → List Char) (s : List Char)
    (hcode : ∀ c ∈ s, (rune c, code c) ∈ leafPaths root) :
    ∀ acc : List Char,
      Decode.loop root (s.flatMap code) root acc = .ok (root, acc ++ s) := by
  induction s with
  | nil => intro acc; simp [Decode.loop]
  | cons c s ih =>
    intro acc
    rw [List.flatMap_cons,
      decode_word root root (rune c) (code c) (hcode c (List.mem_cons_self _ _)) hroot,
      ih (fun x hx => hcode x (List.mem_cons_of_mem _ hx)), runeToString_rune]
    simp

/-- Claim C1.  Round trip: for every input string `s` with at least two
distinct symbols and every order in which the frequency table is iterated,
`Decode(encoded, root) = s`, where `(encoded, codes) = Encode(s)` and `root` is
the tree `BuildHuffmanTree` builds from the frequency table of `s` iterated in
the same order. -/
theorem C1_round_trip (range : List (Int × Int) → List (Int × Int)) (s : List Char)
    (a b : Char) (ha : a ∈ s) (hb : b ∈ s) (hab : a ≠ b)
    (hr : (range (countFreq s)).Perm (countFreq s)) :
    ∃ encoded codes root, Encode range s = .ok (encoded, codes)
      ∧ BuildHuffmanTree (range (countFreq s)) = .ok root
      ∧ Decode encoded root = .ok s := by
  have hne : s ≠ [] := List.ne_nil_of_mem ha
  obtain ⟨root, hb1, _, hnil, _, hl, he⟩ := Encode_spec range s hne hr
  refine ⟨_, _, root, he, hb1, ?_⟩
  have hnd := Encode_nodup root s hl
  have hcode : ∀ c ∈ s, (rune c, (BuildCodes root [] GoMap.empty).get (rune c))
      ∈ leafPaths root := by
    intro c hc
    obtain ⟨w, hw⟩ := (Encode_keys root s hl (rune c)).2 (List.mem_map.2 ⟨c, hc, rfl⟩)
    have := (C4_aux root hnd (rune c) w).2 hw
    unfold GoMap.get
    rw [this]
    exact hw
  have hroot : root.isLeaf = false := by
    cases root with
    | nil => rfl
    | mk v f l r =>
      cases hleaf : (Node.mk v f l r).isLeaf with
      | false => rfl
      | true =>
        exfalso
        have h1 := leafPaths_nil_of_leaf v f l r hleaf
        have ha2 := hcode a ha
        have hb2 := hcode b hb
        rw [h1, List.mem_singleton, Prod.mk.injEq] at ha2 hb2
        exact hab (rune_injective a b (ha2.1.trans hb2.1.symm))
  unfold Decode
  rw [decode_words root hroot _ s hcode []]
  rfl

theorem C1_round_trip_witness :
    ∃ encoded codes root, Encode id ['a', 'b', 'a'] = .ok (encoded, codes)
      ∧ BuildHuffmanTree (id (countFreq ['a', 'b', 'a'])) = .ok root
      ∧ Decode encoded root = .ok ['a', 'b', 'a'] :=
  C1_round_trip id ['a', 'b', 'a'] 'a' 'b' (by decide) (by decide) (by decide)
    (List.Perm.refl _)

/-! ### Optimality: shapes, the exchange step, the greedy merge -/

theorem FullDepths_perm (D D2 : List Nat) (hp : D.Perm D2) (h : FullDepths D) :
    FullDepths D2 := by
  match h with
  | .leaf =>
    have : D2 = [0] := List.perm_singleton.1 hp.symm
    rw [this]
    exact FullDepths.leaf
  | .node _ A B hA hB hD => exact FullDepths.node D2 A B hA hB (hp.symm.trans hD)

theorem FullDepths_length (D : List Nat) (h : FullDepths D) : 0 < D.length := by
  induction h with
  | leaf => simp
  | node D A B _ _ hD ihA _ =>
    rw [hD.length_eq, List.length_map, List.length_append]
    omega

theorem FullDepths_single (D : List Nat) (h : FullDepths D) (hl : D.length = 1) :
    D = [0] := by
  match h with
  | .leaf => rfl
  | .node _ A B hA hB hD =>
    have h1 := FullDepths_length A hA
    have h2 := FullDepths_length B hB
    rw [hD.length_eq, List.length_map, List.length_append] at hl
    omega

/-- A tree with at least two leaves has two sibling leaves at the greatest
depth; replacing them by one leaf at their parent gives a shape again. -/
theorem FullDepths_cherry (D : List Nat) (h : FullDepths D) :
    D = [0] ∨ ∃ k D2, D.Perm ((k + 1) :: (k + 1) :: D2) ∧ (∀ d ∈ D, d ≤ k + 1)
      ∧ FullDepths (k :: D2) := by
  induction h with
  | leaf => exact Or.inl rfl
  | node D A B hA hB hD ihA ihB =>
    right
    have hmem : ∀ d ∈ D, ∃ x, x ∈ A ++ B ∧ d = x + 1 := by
      intro d hd
      obtain ⟨x, hx, rfl⟩ := List.mem_map.1 (hD.subset hd)
      exact ⟨x, hx, rfl⟩
    rcases ihA with rfl | ⟨k1, A2, pA, mA, fA⟩
    · rcases ihB with rfl | ⟨k2, B2, pB, mB, fB⟩
      · refine ⟨0, [], hD, ?_, FullDepths.leaf⟩
        intro d hd
        obtain ⟨x, hx, rfl⟩ := hmem d hd
        simp at hx
        omega
      · refine ⟨k2 + 1, 1 :: B2.map Nat.succ, ?_, ?_, ?_⟩
        · refine hD.trans ?_
          have := (List.Perm.append_left [0] pB).map Nat.succ
          refine this.trans ?_
          simp only [List.singleton_append, List.map_cons, Nat.succ_eq_add_one, zero_add]
          exact (List.Perm.swap _ _ _).trans
            (List.Perm.cons _ (List.Perm.swap _ _ _))
        · intro d hd
          obtain ⟨x, hx, rfl⟩ := hmem d hd
          rcases List.mem_append.1 hx with hx | hx
          · simp at hx; omega
          · have := mB x hx; omega
        · apply FullDepths.node _ [0] (k2 :: B2) FullDepths.leaf fB
          simp only [List.singleton_append, List.map_cons, Nat.succ_eq_add_one, zero_add]
          exact List.Perm.swap _ _ _
    · have key1 : (∀ d ∈ B, d ≤ k1 + 1) →
          ∃ k D2, D.Perm ((k + 1) :: (k + 1) :: D2) ∧ (∀ d ∈ D, d ≤ k + 1)
            ∧ FullDepths (k :: D2) := by
        intro hB1
        refine ⟨k1 + 1, (A2 ++ B).map Nat.succ, ?_, ?_, ?_⟩
        · refine hD.trans ?_
          have := (List.Perm.append_right B pA).map Nat.succ
          refine this.trans ?_
          simp only [List.cons_append, List.map_cons, Nat.succ_eq_add_one]
          exact List.Perm.refl _
        · intro d hd
          obtain ⟨x, hx, rfl⟩ := hmem d hd
          rcases List.mem_append.1 hx with hx | hx
          · have := mA x hx; omega
          · have := hB1 x hx; omega
        · apply FullDepths.node _ (k1 :: A2) B fA hB
          simp only [List.cons_append, List.map_cons, Nat.succ_eq_add_one]
          exact List.Perm.refl _
      rcases ihB with rfl | ⟨k2, B2, pB, mB, fB⟩
      · exact key1 (by intro d hd; simp at hd; omega)
      · by_cases hk : k2 ≤ k1
        · exact key1 (by intro d hd; have := mB d hd; omega)
        · refine ⟨k2 + 1, (A ++ B2).map Nat.succ, ?_, ?_, ?_⟩
          · refine hD.trans ?_
            have := (List.Perm.append_left A pB).map Nat.succ
            refine this.trans ?_
            have h2 : (A ++ (k2 + 1) :: (k2 + 1) :: B2).Perm
                ((k2 + 1) :: (k2 + 1) :: (A ++ B2)) := by
              refine List.perm_middle.trans (List.Perm.cons _ ?_)
              exact List.perm_middle
            exact (h2.map Nat.succ)
          · intro d hd
            obtain ⟨x, hx, rfl⟩ := hmem d hd
            rcases List.mem_append.1 hx with hx | hx
            · have := mA x hx; omega
            · have := mB x hx; omega
          · apply FullDepths.node _ A (k2 :: B2) hA fB
            exact (List.perm_middle.symm.map Nat.succ)

theorem pcost_cons (p : Int × Nat) (P : List (Int × Nat)) :
    pcost (p :: P) = p.1 * (p.2 : Int) + pcost P := by
  simp [pcost]

theorem pcost_append (P Q : List (Int × Nat)) : pcost (P ++ Q) = pcost P + pcost Q := by
  simp [pcost]

theorem pcost_perm (P Q : List (Int × Nat)) (h : P.Perm Q) : pcost P = pcost Q :=
  (h.map _).sum_eq

/-- In a list of (weight, depth) pairs, a least weight can be moved to a
greatest depth without increasing the weighted length. -/
theorem place_min (P : List (Int × Nat)) (H : Nat) (a : Int)
    (hH : H ∈ P.map Prod.snd) (hdep : ∀ p ∈ P, p.2 ≤ H)
    (ha : a ∈ P.map Prod.fst) (hmin : ∀ p ∈ P, a ≤ p.1) :
    ∃ P1 : List (Int × Nat), (P.map Prod.fst).Perm (a :: P1.map Prod.fst)
      ∧ (P.map Prod.snd).Perm (H :: P1.map Prod.snd)
      ∧ pcost P1 + a * (H : Int) ≤ pcost P := by
  obtain ⟨⟨x, H2⟩, hx, hx2⟩ := List.mem_map.1 hH
  simp only at hx2
  subst hx2
  obtain ⟨Q, p1⟩ : ∃ Q, P.Perm ((x, H2) :: Q) := ⟨_, List.perm_cons_erase hx⟩
  by_cases hax : a = x
  · subst hax
    refine ⟨Q, p1.map Prod.fst, p1.map Prod.snd, ?_⟩
    rw [pcost_perm _ _ p1, pcost_cons]
    simp only
    omega
  · obtain ⟨⟨a2, d⟩, had, ha2⟩ := List.mem_map.1 ha
    simp only at ha2
    subst ha2
    have hq : (a2, d) ∈ Q := by
      rcases List.mem_cons.1 (p1.subset had) with e | h
      · exact absurd (Prod.mk.inj e).1 hax
      · exact h
    obtain ⟨Q2, p2⟩ : ∃ Q2, Q.Perm ((a2, d) :: Q2) := ⟨_, List.perm_cons_erase hq⟩
    have p3 : P.Perm ((x, H2) :: (a2, d) :: Q2) := p1.trans (List.Perm.cons _ p2)
    refine ⟨(x, d) :: Q2, ?_, ?_, ?_⟩
    · exact (p3.map Prod.fst).trans (List.Perm.swap _ _ _)
    · exact p3.map Prod.snd
    · rw [pcost_perm _ _ p3, pcost_cons, pcost_cons, pcost_cons]
      simp only
      have h1 : a2 ≤ x := hmin (x, H2) hx
      have h2 : (d : Int) ≤ (H2 : Int) := by exact_mod_cast hdep (a2, d) had
      nlinarith [mul_nonneg (sub_nonneg.2 h1) (sub_nonneg.2 h2)]

/-- The exchange step of the optimality argument: in any full shape labelled
with weights of which `a` is least and `b` least among the others, `a` and `b`
can be made sibling leaves of greatest depth and merged into one leaf of weight
`a + b`, which lowers the weighted length by at least `a + b`. -/
theorem exchange (P : List (Int × Nat)) (a b : Int) (W : List Int)
    (hF : FullDepths (P.map Prod.snd)) (hW : (P.map Prod.fst).Perm (a :: b :: W))
    (ha : ∀ w ∈ b :: W, a ≤ w) (hb : ∀ w ∈ W, b ≤ w) :
    ∃ P2 : List (Int × Nat), FullDepths (P2.map Prod.snd)
      ∧ (P2.map Prod.fst).Perm ((a + b) :: W) ∧ pcost P2 + a + b ≤ pcost P := by
  rcases FullDepths_cherry _ hF with h0 | ⟨k, D2, pD, mD, fD⟩
  · have h1 := hW.length_eq
    have h2 := congrArg List.length h0
    simp only [List.length_map, List.length_cons, List.length_nil] at h1 h2
    omega
  · have hmin1 : ∀ p ∈ P, a ≤ p.1 := by
      intro p hp
      have : p.1 ∈ a :: b :: W := hW.subset (List.mem_map.2 ⟨p, hp, rfl⟩)
      rcases List.mem_cons.1 this with e | h
      · rw [e]
      · exact ha _ h
    obtain ⟨P1, w1, d1, c1⟩ := place_min P (k + 1) a
      (pD.symm.subset (List.mem_cons_self _ _))
      (fun p hp => mD p.2 (List.mem_map.2 ⟨p, hp, rfl⟩))
      (hW.symm.subset (List.mem_cons_self _ _)) hmin1
    have w1b : (P1.map Prod.fst).Perm (b :: W) := (w1.symm.trans hW).cons_inv
    have d1b : (P1.map Prod.snd).Perm ((k + 1) :: D2) := (d1.symm.trans pD).cons_inv
    have hmin2 : ∀ p ∈ P1, b ≤ p.1 := by
      intro p hp
      have : p.1 ∈ b :: W := w1b.subset (List.mem_map.2 ⟨p, hp, rfl⟩)
      rcases List.mem_cons.1 this with e | h
      · rw [e]
      · exact hb _ h
    have hdep2 : ∀ p ∈ P1, p.2 ≤ k + 1 := by
      intro p hp
      apply mD
      exact d1.symm.subset (List.mem_cons_of_mem _ (List.mem_map.2 ⟨p, hp, rfl⟩))
    obtain ⟨P2, w2, d2, c2⟩ := place_min P1 (k + 1) b
      (d1b.symm.subset (List.mem_cons_self _ _)) hdep2
      (w1b.symm.subset (List.mem_cons_self _ _)) hmin2
    have w2b : (P2.map Prod.fst).Perm W := (w2.symm.trans w1b).cons_inv
    have d2b : (P2.map Prod.snd).Perm D2 := (d2.symm.trans d1b).cons_inv
    refine ⟨(a + b, k) :: P2, ?_, ?_, ?_⟩
    · exact FullDepths_perm _ _ (List.Perm.cons _ d2b.symm) fD
    · exact List.Perm.cons _ w2b
    · rw [pcost_cons]
      simp only
      push_cast at c1 c2
      have e : (a + b) * (k : Int) + a + b = a * ((k : Int) + 1) + b * ((k : Int) + 1) := by
        ring
      linarith

theorem wd_fst (t : Node) : t.wd.map Prod.fst = t.leaves.map Prod.snd := by
  induction t with
  | nil => rfl
  | mk v f l r ihl ihr =>
    unfold Node.wd Node.leaves
    split
    · rename_i h
      cases l <;> cases r <;> simp_all [Node.isNil, Node.leaves]
    · simp only [List.map_map, List.nil_append, List.map_append]
      rw [← ihl, ← ihr]
      simp [Function.comp_def]

theorem wd_fst_sum (t : Node) : (t.wd.map Prod.fst).sum = t.leafSum := by
  rw [wd_fst]; rfl

theorem pcost_shift (P : List (Int × Nat)) :
    pcost (P.map (fun p => (p.1, p.2 + 1))) = pcost P + (P.map Prod.fst).sum := by
  induction P with
  | nil => simp [pcost]
  | cons p P ih =>
    rw [List.map_cons, pcost_cons, pcost_cons, ih, List.map_cons, List.sum_cons]
    push_cast
    ring

theorem cost_nil : Node.nil.cost = 0 := rfl

theorem leafSum_nil : Node.nil.leafSum = 0 := rfl

theorem cost_mk (v f : Int) (l r : Node) (h : (l.isNil && r.isNil) = false) :
    (Node.mk v f l r).cost = l.cost + r.cost + l.leafSum + r.leafSum := by
  unfold Node.cost
  rw [Node.wd, h]
  simp only [Bool.false_eq_true, if_false]
  rw [pcost_shift, pcost_append, List.map_append, List.sum_append, wd_fst_sum, wd_fst_sum]
  ring

theorem leafSum_mk (v f : Int) (l r : Node) (h : (l.isNil && r.isNil) = false) :
    (Node.mk v f l r).leafSum = l.leafSum + r.leafSum := by
  unfold Node.leafSum
  rw [Node.leaves, h]
  simp

theorem cost_parentOf (l r : Node) (hl : l.isNil = false) :
    (parentOf l r).cost = l.cost + r.cost + l.leafSum + r.leafSum :=
  cost_mk _ _ l r (by simp [hl])

theorem leafSum_parentOf (l r : Node) (hl : l.isNil = false) :
    (parentOf l r).leafSum = l.leafSum + r.leafSum :=
  leafSum_mk _ _ l r (by simp [hl])

theorem sum_freq_nonneg (q : List Node) (h : ∀ x ∈ q, 0 ≤ x.freq) :
    0 ≤ (q.map Node.freq).sum := by
  apply List.sum_nonneg
  intro w hw
  obtain ⟨x, hx, rfl⟩ := List.mem_map.1 hw
  exact h x hx

/-- The merge loop is optimal on the current queue: when no sum overflows, the
tree it ends with costs no more than joining the nodes of the queue along any
full shape, whatever node is put at whatever leaf of the shape. -/
theorem Huff_optimal (q : List Node) (t : Node) (h : Huff q t) :
    ForestOk q → ∀ P : List (Int × Nat), FullDepths (P.map Prod.snd) →
      (P.map Prod.fst).Perm (q.map Node.freq) →
      t.cost ≤ (q.map Node.cost).sum + pcost P := by
  induction h with
  | one t =>
    intro _ P hF hW
    have hlen : P.length = 1 := by simpa using hW.length_eq
    have h0 := FullDepths_single _ hF (by simpa using hlen)
    match P, hlen, h0 with
    | [p], _, h0 =>
      simp only [List.map_cons, List.map_nil, List.cons.injEq, and_true] at h0
      simp [pcost, h0]
  | merge q l r rest t hp hl hr _ ih =>
    intro hok P hF hW
    have okl := hok.1 l (hp.symm.subset (by simp))
    have okr := hok.1 r (hp.symm.subset (by simp))
    have okrest : ∀ x ∈ rest, x.isNil = false ∧ x.freq = x.leafSum ∧ 0 ≤ x.freq :=
      fun x hx => hok.1 x (hp.symm.subset (by simp [hx]))
    have hsum : (q.map Node.freq).sum = l.freq + (r.freq + (rest.map Node.freq).sum) := by
      rw [(hp.map Node.freq).sum_eq]
      simp
    have hrest0 := sum_freq_nonneg rest (fun x hx => (okrest x hx).2.2)
    have hlt := hok.2
    have hpf : (parentOf l r).freq = l.freq + r.freq := by
      show wrap (l.freq + r.freq) = _
      apply wrap_of_isInt64
      unfold isInt64
      have := okl.2.2
      have := okr.2.2
      omega
    have ok2 : ForestOk (parentOf l r :: rest) := by
      constructor
      · intro x hx
        rcases List.mem_cons.1 hx with rfl | hx
        · refine ⟨rfl, ?_, ?_⟩
          · rw [hpf, leafSum_parentOf l r okl.1, okl.2.1, okr.2.1]
          · rw [hpf]
            have := okl.2.2
            have := okr.2.2
            omega
        · exact okrest x hx
      · rw [List.map_cons, List.sum_cons, hpf]
        omega
    have hW2 : (P.map Prod.fst).Perm (l.freq :: r.freq :: rest.map Node.freq) :=
      hW.trans (hp.map Node.freq)
    have ha : ∀ w ∈ r.freq :: rest.map Node.freq, l.freq ≤ w := by
      intro w hw
      have : w ∈ (r :: rest).map Node.freq := hw
      obtain ⟨y, hy, rfl⟩ := List.mem_map.1 this
      exact hl y hy
    have hb : ∀ w ∈ rest.map Node.freq, r.freq ≤ w := by
      intro w hw
      obtain ⟨y, hy, rfl⟩ := List.mem_map.1 hw
      exact hr y hy
    obtain ⟨P2, hF2, hWP2, hc⟩ := exchange P l.freq r.freq _ hF hW2 ha hb
    have hih := ih ok2 P2 hF2 (by rw [List.map_cons, hpf]; exact hWP2)
    rw [List.map_cons, List.sum_cons, cost_parentOf l r okl.1] at hih
    have hcq : (q.map Node.cost).sum = l.cost + (r.cost + (rest.map Node.cost).sum) := by
      rw [(hp.map Node.cost).sum_eq]
      simp
    rw [hcq]
    have e1 := okl.2.1
    have e2 := okr.2.1
    linarith

theorem contract_isNil (u : Node) : u.contract.isNil = u.isNil := by
  induction u with
  | nil => rfl
  | mk v f l r ihl ihr =>
    unfold Node.contract
    split
    · rfl
    · rename_i h
      split
      · rename_i h1
        rw [ihl] at h1
        rw [ihr]
        cases l <;> cases r <;> simp_all [Node.isNil]
      · split
        · rename_i h1 h2
          rw [ihl]
          cases l <;> cases r <;> simp_all [Node.isNil]
        · rfl

theorem contract_shapeOk (u : Node) : u.contract.shapeOk = true := by
  induction u with
  | nil => rfl
  | mk v f l r ihl ihr =>
    unfold Node.contract
    split
    · rfl
    · split
      · exact ihr
      · split
        · exact ihl
        · rename_i h1 h2
          simp only [Node.shapeOk, ihl, ihr, Bool.and_true, beq_iff_eq]
          simp only [Bool.not_eq_true] at h1 h2
          rw [h1, h2]

theorem leaves_mk (v f : Int) (l r : Node) (h : (l.isNil && r.isNil) = false) :
    (Node.mk v f l r).leaves = l.leaves ++ r.leaves := by
  rw [Node.leaves, h]
  simp

theorem leaves_of_isNil (t : Node) (h : t.isNil = true) : t.leaves = [] := by
  cases t with
  | nil => rfl
  | mk _ _ _ _ => simp [Node.isNil] at h

theorem contract_leaves (u : Node) : u.contract.leaves = u.leaves := by
  induction u with
  | nil => rfl
  | mk v f l r ihl ihr =>
    unfold Node.contract
    split
    · rename_i h
      cases l <;> cases r <;> simp_all [Node.isNil, Node.leaves]
    · rename_i h
      simp only [Bool.not_eq_true] at h
      rw [leaves_mk v f l r h]
      split
      · rename_i h1
        rw [contract_isNil] at h1
        rw [ihr, leaves_of_isNil l h1]
        rfl
      · split
        · rename_i h1 h2
          rw [contract_isNil] at h2
          rw [ihl, leaves_of_isNil r h2]
          simp
        · rename_i h1 h2
          simp only [Bool.not_eq_true] at h1
          rw [leaves_mk _ _ _ _ (by simp [h1]), ihl, ihr]

theorem leafSum_nonneg (u : Node) (h : ∀ e ∈ u.leaves, 0 ≤ e.2) : 0 ≤ u.leafSum := by
  apply List.sum_nonneg
  intro w hw
  obtain ⟨e, he, rfl⟩ := List.mem_map.1 hw
  exact h e he

theorem contract_cost (u : Node) : (∀ e ∈ u.leaves, 0 ≤ e.2) → u.contract.cost ≤ u.cost := by
  induction u with
  | nil => intro _; exact le_refl _
  | mk v f l r ihl ihr =>
    intro hpos
    unfold Node.contract
    split
    · rename_i h
      cases l <;> cases r <;> simp_all [Node.isNil]
    · rename_i h
      simp only [Bool.not_eq_true] at h
      rw [leaves_mk v f l r h] at hpos
      have hpl : ∀ e ∈ l.leaves, 0 ≤ e.2 := fun e he => hpos e (List.mem_append_left _ he)
      have hpr : ∀ e ∈ r.leaves, 0 ≤ e.2 := fun e he => hpos e (List.mem_append_right _ he)
      have h1 := ihl hpl
      have h2 := ihr hpr
      have s1 := leafSum_nonneg l hpl
      have s2 := leafSum_nonneg r hpr
      rw [cost_mk v f l r h]
      split
      · rename_i hn
        rw [contract_isNil] at hn
        have : l.cost = 0 := by
          cases l with
          | nil => rfl
          | mk _ _ _ _ => simp [Node.isNil] at hn
        omega
      · split
        · rename_i hn1 hn2
          rw [contract_isNil] at hn2
          have : r.cost = 0 := by
            cases r with
            | nil => rfl
            | mk _ _ _ _ => simp [Node.isNil] at hn2
          omega
        · rename_i hn1 hn2
          simp only [Bool.not_eq_true] at hn1
          rw [cost_mk _ _ _ _ (by simp [hn1])]
          have e1 : l.contract.leafSum = l.leafSum := by
            unfold Node.leafSum; rw [contract_leaves]
          have e2 : r.contract.leafSum = r.leafSum := by
            unfold Node.leafSum; rw [contract_leaves]
          omega

theorem shape_FullDepths (t : Node) :
    t.isNil = false → t.shapeOk = true → FullDepths (t.wd.map Prod.snd) := by
  induction t with
  | nil => intro h; simp [Node.isNil] at h
  | mk v f l r ihl ihr =>
    intro _ hs
    unfold Node.wd
    split
    · exact FullDepths.leaf
    · rename_i h
      simp only [Node.shapeOk, Bool.and_eq_true, beq_iff_eq] at hs
      have hl : l.isNil = false := by
        cases hln : l.isNil
        · rfl
        · rw [hln] at hs h
          rw [← hs.1.1] at h
          simp at h
      have hr : r.isNil = false := by rw [← hs.1.1]; exact hl
      apply FullDepths.node _ _ _ (ihl hl hs.1.2) (ihr hr hs.2)
      simp only [List.map_map, List.map_append]
      exact List.Perm.refl _

theorem ForestOk_leaves (freq : List (Int × Int)) (hpos : ∀ e ∈ freq, 0 ≤ e.2)
    (hsum : (freq.map Prod.snd).sum < 9223372036854775808) :
    ForestOk (freq.map leafOf) := by
  constructor
  · intro x hx
    obtain ⟨e, he, rfl⟩ := List.mem_map.1 hx
    refine ⟨rfl, ?_, hpos e he⟩
    show e.2 = e.2 + 0
    rw [add_zero]
  · rw [List.map_map]
    exact hsum

theorem cost_leaves_zero (freq : List (Int × Int)) :
    ((freq.map leafOf).map Node.cost).sum = 0 := by
  induction freq with
  | nil => rfl
  | cons e freq ih =>
    rw [List.map_cons, List.map_cons, List.sum_cons, ih]
    simp [leafOf, Node.cost, Node.wd, Node.isNil, pcost]

/-- The tree built from a table whose counts are not negative and do not
overflow costs no more than any labelling of any full shape with the counts. -/
theorem Huff_optimal_table (freq : List (Int × Int)) (t : Node)
    (h : Huff (freq.map leafOf) t) (hpos : ∀ e ∈ freq, 0 ≤ e.2)
    (hsum : (freq.map Prod.snd).sum < 9223372036854775808)
    (P : List (Int × Nat)) (hF : FullDepths (P.map Prod.snd))
    (hW : (P.map Prod.fst).Perm (freq.map Prod.snd)) : t.cost ≤ pcost P := by
  have := Huff_optimal _ t h (ForestOk_leaves freq hpos hsum) P hF
    (by rw [List.map_map]; exact hW)
  rw [cost_leaves_zero] at this
  omega

/-- Claim C3, as stated, fails: the counts of `overflowTable` are all at least
1, yet the tree `BuildHuffmanTree` returns for it has a greater weighted path
length than `overflowRival`, a tree over the same entries: the frequencies of
the merged nodes overflow and are compared after wrapping around. -/
theorem C3_counterexample :
    (∀ e ∈ overflowTable, 1 ≤ e.2)
      ∧ ∃ t, BuildHuffmanTree overflowTable = .ok t
          ∧ overflowRival.leaves.Perm overflowTable
          ∧ overflowRival.cost < t.cost :=
  ⟨by decide, _, rfl, List.Perm.refl _, by decide⟩

/-- Claim C3, amended.  Optimality: for every non-empty frequency table whose
counts are all at least 1 and add up to less than `2^63`, in whatever order it
is iterated, the tree returned by `BuildHuffmanTree` has the entries of the
table as leaves and a minimal weighted path length: the sum over its leaves of
frequency times depth is at most that sum for every binary tree (one-child
nodes allowed) whose leaves are exactly the entries of the table, each
once. -/
theorem C3_optimal (freq : List (Int × Int)) (hne : freq ≠ [])
    (hpos : ∀ e ∈ freq, 1 ≤ e.2)
    (hsum : (freq.map Prod.snd).sum < 9223372036854775808) :
    ∃ t, BuildHuffmanTree freq = .ok t ∧ t.leaves.Perm freq
      ∧ ∀ u : Node, u.leaves.Perm freq → t.cost ≤ u.cost := by
  obtain ⟨t, e, h, _, _, hl⟩ := BuildHuffmanTree_tree freq hne
  refine ⟨t, e, hl, ?_⟩
  intro u hu
  have hpos0 : ∀ e ∈ freq, 0 ≤ e.2 := fun e he => le_trans (by decide) (hpos e he)
  have hun : u.isNil = false := by
    cases u with
    | nil => exact absurd (List.Perm.eq_nil hu.symm) hne
    | mk _ _ _ _ => rfl
  have hF := shape_FullDepths u.contract (by rw [contract_isNil]; exact hun)
    (contract_shapeOk u)
  have hW : (u.contract.wd.map Prod.fst).Perm (freq.map Prod.snd) := by
    rw [wd_fst, contract_leaves]
    exact hu.map Prod.snd
  have h1 := Huff_optimal_table freq t h hpos0 hsum _ hF hW
  have h2 := contract_cost u (fun e he => hpos0 e (hu.subset he))
  exact le_trans h1 h2

theorem C3_optimal_witness :
    ∃ t, BuildHuffmanTree [(97, 3), (98, 1), (99, 2)] = .ok t
      ∧ t.leaves.Perm [(97, 3), (98, 1), (99, 2)]
      ∧ ∀ u : Node, u.leaves.Perm [(97, 3), (98, 1), (99, 2)] → t.cost ≤ u.cost :=
  C3_optimal [(97, 3), (98, 1), (99, 2)] (by decide) (by decide) (by decide)

/-! ### Code lengths against frequencies -/

theorem info_leaves (t : Node) : t.info.map (fun i => (i.1, i.2.1)) = t.leaves := by
  induction t with
  | nil => rfl
  | mk v f l r ihl ihr =>
    unfold Node.info Node.leaves
    split
    · rename_i h
      cases l <;> cases r <;> simp_all [Node.isNil, Node.leaves]
    · simp only [List.map_append, List.map_map, List.nil_append]
      rw [← ihl, ← ihr]
      rfl

theorem info_leafPaths (t : Node) : t.info.map (fun i => (i.1, i.2.2)) = leafPaths t := by
  induction t with
  | nil => rfl
  | mk v f l r ihl ihr =>
    unfold Node.info leafPaths
    split
    · rename_i h
      cases l <;> cases r <;> simp_all [Node.isNil, leafPaths]
    · simp only [List.map_append, List.map_map, List.nil_append]
      rw [← ihl, ← ihr]
      simp [Function.comp_def]

theorem info_wd (t : Node) : t.info.map (fun i => (i.2.1, i.2.2.length)) = t.wd := by
  induction t with
  | nil => rfl
  | mk v f l r ihl ihr =>
    unfold Node.info Node.wd
    split
    · rfl
    · simp only [List.map_append, List.map_map]
      rw [← ihl, ← ihr]
      simp [Function.comp_def]

theorem count_rune (s : List Char) (a : Char) :
    (s.map rune).count (rune a) = s.count a :=
  List.count_map_of_injective s rune (fun x y h => rune_injective x y h) a

/-- Claim C8.  Code length monotonicity: for every input string `s` (of fewer
than `2^63` symbols, as every Go string is) and every iteration order of its
frequency table, in the code table returned by `Encode(s)`, two symbols `a` and
`b` of `s` with `count(a) < count(b)` have code words with
`length(codes[a]) >= length(codes[b])`. -/
theorem C8_monotone (range : List (Int × Int) → List (Int × Int)) (s : List Char)
    (hlen : (s.length : Int) < 9223372036854775808)
    (hr : (range (countFreq s)).Perm (countFreq s))
    (a b : Char) (ha : a ∈ s) (hb : b ∈ s) (hcount : s.count a < s.count b) :
    ∃ encoded codes wa wb, Encode range s = .ok (encoded, codes)
      ∧ codes (rune a) = some wa ∧ codes (rune b) = some wb
      ∧ wb.length ≤ wa.length := by
  have hne : s ≠ [] := List.ne_nil_of_mem ha
  obtain ⟨root, _, hH, hnil, hshape, hl, he⟩ := Encode_spec range s hne hr
  have hnd := Encode_nodup root s hl
  obtain ⟨wa, hwa⟩ := (Encode_keys root s hl (rune a)).2 (List.mem_map.2 ⟨a, ha, rfl⟩)
  obtain ⟨wb, hwb⟩ := (Encode_keys root s hl (rune b)).2 (List.mem_map.2 ⟨b, hb, rfl⟩)
  refine ⟨_, _, wa, wb, he, (C4_aux root hnd _ _).2 hwa, (C4_aux root hnd _ _).2 hwb, ?_⟩
  by_contra hcon
  have hlt : wa.length < wb.length := by omega
  rw [← info_leafPaths] at hwa hwb
  obtain ⟨ia, hia, eia⟩ := List.mem_map.1 hwa
  obtain ⟨ib, hib, eib⟩ := List.mem_map.1 hwb
  simp only [Prod.mk.injEq] at eia eib
  have hfreq : ∀ i ∈ root.info, ∀ c : Char, i.1 = rune c → i.2.1 = (s.count c : Int) := by
    intro i hi c hc
    have h1 : (i.1, i.2.1) ∈ root.leaves := by
      rw [← info_leaves]
      exact List.mem_map.2 ⟨i, hi, rfl⟩
    have h2 := (mem_iff_freqGet _ (countFreq_keys s).1 _ _).1 (hl.subset h1)
    rw [← h2.2, hc, countFreq_get s hlen, count_rune]
  have fa := hfreq ia hia a eia.1
  have fb := hfreq ib hib b eib.1
  have hne2 : ia ≠ ib := by
    intro e
    rw [e, fb] at fa
    have : s.count b = s.count a := by exact_mod_cast fa
    omega
  obtain ⟨Q, p1⟩ : ∃ Q, root.info.Perm (ia :: Q) := ⟨_, List.perm_cons_erase hia⟩
  have hq : ib ∈ Q := by
    rcases List.mem_cons.1 (p1.subset hib) with e | h
    · exact absurd e.symm hne2
    · exact h
  obtain ⟨R, p2⟩ : ∃ R, Q.Perm (ib :: R) := ⟨_, List.perm_cons_erase hq⟩
  have p3 : root.info.Perm (ia :: ib :: R) := p1.trans (List.Perm.cons _ p2)
  have p4 := p3.map (fun i => (i.2.1, i.2.2.length))
  rw [info_wd] at p4
  simp only [List.map_cons, fa, fb, eia.2, eib.2] at p4
  obtain ⟨R2, hR2⟩ : ∃ R2, R2 = R.map (fun i => (i.2.1, i.2.2.length)) := ⟨_, rfl⟩
  rw [← hR2] at p4
  have hF := shape_FullDepths root hnil hshape
  have hF2 : FullDepths
      ((((s.count b : Int), wa.length) :: ((s.count a : Int), wb.length) :: R2).map
        Prod.snd) := by
    apply FullDepths_perm _ _ _ hF
    exact p4.map Prod.snd
  have hW2 : ((((s.count b : Int), wa.length) :: ((s.count a : Int), wb.length) :: R2).map
      Prod.fst).Perm ((range (countFreq s)).map Prod.snd) := by
    have h1 : (root.wd.map Prod.fst).Perm ((range (countFreq s)).map Prod.snd) := by
      rw [wd_fst]
      exact (hl.trans hr.symm).map Prod.snd
    refine List.Perm.trans ?_ h1
    refine List.Perm.trans ?_ (p4.map Prod.fst).symm
    simp only [List.map_cons]
    exact List.Perm.swap _ _ _
  have hpos : ∀ e ∈ range (countFreq s), 0 ≤ e.2 := by
    intro e he
    have h2 := (mem_iff_freqGet _ (countFreq_keys s).1 e.1 e.2).1 (hr.subset he)
    rw [← h2.2, countFreq_get s hlen]
    exact Int.natCast_nonneg _
  have hsum : ((range (countFreq s)).map Prod.snd).sum < 9223372036854775808 := by
    rw [(hr.map Prod.snd).sum_eq, countFreq_sum s hlen]
    exact hlen
  have hopt := Huff_optimal_table _ root hH hpos hsum _ hF2 hW2
  have hc : root.cost = pcost (((s.count a : Int), wa.length)
      :: ((s.count b : Int), wb.length) :: R2) := pcost_perm _ _ p4
  rw [hc, pcost_cons, pcost_cons, pcost_cons, pcost_cons] at hopt
  simp only at hopt
  have h1 : (s.count a : Int) < (s.count b : Int) := by exact_mod_cast hcount
  have h2 : (wa.length : Int) < (wb.length : Int) := by exact_mod_cast hlt
  nlinarith [mul_pos (sub_pos.2 h1) (sub_pos.2 h2)]

theorem C8_monotone_witness :
    ∃ encoded codes wa wb, Encode id ['a', 'b', 'b', 'c', 'c', 'c'] = .ok (encoded, codes)
      ∧ codes (rune 'a') = some wa ∧ codes (rune 'c') = some wb
      ∧ wb.length ≤ wa.length :=
  C8_monotone id ['a', 'b', 'b', 'c', 'c', 'c'] (by decide) (List.Perm.refl _) 'a' 'c'
    (by decide) (by decide) (by decide)

/-! ### The decoder on arbitrary streams -/

theorem shapeOk_children (v f : Int) (l r : Node)
    (hs : (Node.mk v f l r).shapeOk = true) (hleaf : (Node.mk v f l r).isLeaf = false) :
    l.isNil = false ∧ r.isNil = false ∧ l.shapeOk = true ∧ r.shapeOk = true := by
  simp only [Node.shapeOk, Bool.and_eq_true, beq_iff_eq] at hs
  have hl : l.isNil = false := by
    cases hln : l.isNil
    · rfl
    · have hr : r.isNil = true := by rw [← hs.1.1]; exact hln
      simp [Node.isLeaf, hln, hr] at hleaf
  exact ⟨hl, by rw [← hs.1.1]; exact hl, hs.1.2, hs.2⟩

theorem loop_safe (root : Node) (hr1 : root.isNil = false) (hr2 : root.isLeaf = false)
    (hr3 : root.shapeOk = true) :
    ∀ (e : List Char) (cur : Node) (acc : List Char), cur.isNil = false →
      cur.isLeaf = false → cur.shapeOk = true →
      ∃ c out, Decode.loop root e cur acc = .ok (c, out) := by
  intro e
  induction e with
  | nil => intro cur acc _ _ _; exact ⟨cur, acc, rfl⟩
  | cons bit rest ih =>
    intro cur acc h1 h2 h3
    cases cur with
    | nil => simp [Node.isNil] at h1
    | mk v f l r =>
      obtain ⟨hl, hr, sl, sr⟩ := shapeOk_children v f l r h3 h2
      have hc : ∃ v1 f1 l1 r1, (if bit = '0' then l else r) = Node.mk v1 f1 l1 r1
          ∧ (Node.mk v1 f1 l1 r1).shapeOk = true := by
        split
        · cases l with
          | nil => simp [Node.isNil] at hl
          | mk v1 f1 l1 r1 => exact ⟨v1, f1, l1, r1, rfl, sl⟩
        · cases r with
          | nil => simp [Node.isNil] at hr
          | mk v1 f1 l1 r1 => exact ⟨v1, f1, l1, r1, rfl, sr⟩
      obtain ⟨v1, f1, l1, r1, hc1, hc2⟩ := hc
      rw [loop_cons_mk root bit rest v f l r acc v1 f1 l1 r1 hc1]
      by_cases hleaf : (l1.isNil && r1.isNil) = true
      · rw [if_pos hleaf]
        exact ih root _ hr1 hr2 hr3
      · rw [if_neg hleaf]
        exact ih _ _ rfl (by simpa [Node.isLeaf] using hleaf) hc2

/-- Claim C17.  Decoder safety on well-shaped trees: for every tree whose root
is an internal node and in which every node has no child or two children, and
for every stream, `Decode` never follows a missing child (no nil dereference)
and returns a string. -/
theorem C17_decoder_safe (root : Node) (h1 : root.isNil = false)
    (h2 : root.isLeaf = false) (h3 : root.shapeOk = true) (e : List Char) :
    ∃ out, Decode e root = .ok out := by
  obtain ⟨c, out, h⟩ := loop_safe root h1 h2 h3 e root [] h1 h2 h3
  refine ⟨out, ?_⟩
  unfold Decode
  rw [h]

theorem C17_decoder_safe_witness :
    ∃ out, Decode ['0', 'x', '1', '1', '0'] depth3Tree = .ok out :=
  C17_decoder_safe depth3Tree rfl rfl rfl ['0', 'x', '1', '1', '0']

/-- Claim C19.  Leaf root in the decoder: against a tree whose root is a leaf,
`Decode` returns the empty string on the empty stream and fails on every
non-empty stream, dereferencing the missing child at the first bit; it never
emits the symbol of the root. -/
theorem C19_leaf_root (v f : Int) :
    Decode [] (Node.mk v f Node.nil Node.nil) = .ok []
      ∧ ∀ (bit : Char) (rest : List Char),
          Decode (bit :: rest) (Node.mk v f Node.nil Node.nil)
            = .error Panic.nilDereference := by
  refine ⟨rfl, ?_⟩
  intro bit rest
  have h : Decode.loop (Node.mk v f Node.nil Node.nil) (bit :: rest)
      (Node.mk v f Node.nil Node.nil) [] = .error Panic.nilDereference := by
    rw [Decode.loop]
    simp only [ite_self]
  unfold Decode
  rw [h]

theorem normBit_eq (c : Char) : (normBit c = '0') ↔ (c = '0') := by
  unfold normBit
  split
  · rename_i h; simp [h]
  · rename_i h
    simp only [h, iff_false]
    decide

theorem loop_normBit (root : Node) :
    ∀ (e : List Char) (cur : Node) (acc : List Char),
      Decode.loop root e cur acc = Decode.loop root (e.map normBit) cur acc := by
  intro e
  induction e with
  | nil => intro cur acc; rfl
  | cons bit rest ih =>
    intro cur acc
    rw [List.map_cons]
    cases cur with
    | nil => rfl
    | mk v f l r =>
      have hb : (if normBit bit = '0' then l else r) = (if bit = '0' then l else r) := by
        by_cases h : bit = '0'
        · rw [if_pos h, if_pos ((normBit_eq bit).2 h)]
        · rw [if_neg h, if_neg (fun h2 => h ((normBit_eq bit).1 h2))]
      cases hc : (if bit = '0' then l else r) with
      | nil =>
        unfold Decode.loop
        simp only [hb, hc]
      | mk v1 f1 l1 r1 =>
        rw [loop_cons_mk root bit rest v f l r acc v1 f1 l1 r1 hc,
          loop_cons_mk root (normBit bit) _ v f l r acc v1 f1 l1 r1 (hb.trans hc),
          ih, ih]

/-- Claim C20.  Non-binary characters in the stream: `Decode` treats every
character other than `'0'` as the bit 1; for every tree and every stream `e`,
`Decode(e, root)` is `Decode(e', root)` where `e'` replaces each character of
`e` that is not `'0'` by `'1'`, so no stream is rejected for its characters. -/
theorem C20_non_binary (root : Node) (e : List Char) :
    Decode e root = Decode (e.map normBit) root := by
  unfold Decode
  rw [loop_normBit root e root []]

/-! ### Single-symbol input, the scenario `"aaab"`, the frequency counter, the leaves -/

theorem foldl_replicate_single (ch : Char) :
    ∀ (k : Nat) (m : Int), ∃ m2 : Int,
      (List.replicate k ch).foldl (fun m c => freqIncr m (rune c)) [(rune ch, m)]
        = [(rune ch, m2)] := by
  intro k
  induction k with
  | zero => intro m; exact ⟨m, rfl⟩
  | succ k ih =>
    intro m
    rw [List.replicate_succ, List.foldl_cons]
    have : freqIncr [(rune ch, m)] (rune ch) = [(rune ch, wrap (m + 1))] := by
      simp [freqIncr]
    rw [this]
    exact ih _

theorem countFreq_replicate (ch : Char) (k : Nat) :
    ∃ m : Int, countFreq (List.replicate (k + 1) ch) = [(rune ch, m)] := by
  unfold countFreq
  rw [List.replicate_succ, List.foldl_cons]
  exact foldl_replicate_single ch k _

theorem Huff_single (x t : Node) (h : Huff [x] t) : t = x := by
  match h with
  | .one _ => rfl
  | .merge _ l r rest _ hp _ _ _ =>
    have := hp.length_eq
    simp at this

theorem BuildHuffmanTree_single (c n : Int) :
    BuildHuffmanTree [(c, n)] = .ok (Node.mk c n Node.nil Node.nil) := by
  obtain ⟨t, e, h⟩ := BuildHuffmanTree_spec [(c, n)] (by simp)
  rw [e, Huff_single _ t h]
  rfl

theorem flatMap_nil_of_forall (f : Char → List Char) (s : List Char)
    (h : ∀ c ∈ s, f c = []) : s.flatMap f = [] := by
  induction s with
  | nil => rfl
  | cons c s ih =>
    rw [List.flatMap_cons, h c (List.mem_cons_self _ _),
      ih (fun x hx => h x (List.mem_cons_of_mem _ hx))]
    rfl

/-- Claim C11.  Single-symbol alphabet: for a frequency table with the single
entry `(c, n)`, `BuildHuffmanTree` returns the leaf `(c, n)` itself as the root
and `BuildCodes` gives `c` the empty code word; so for an input `s` made of
`k + 1` repetitions of one symbol, `Encode(s)` returns the empty stream, and
`Decode` of that stream against the tree returns the empty string, which is
not `s`. -/
theorem C11_single_symbol (c n : Int) (range : List (Int × Int) → List (Int × Int))
    (ch : Char) (k : Nat)
    (hr : (range (countFreq (List.replicate (k + 1) ch))).Perm
      (countFreq (List.replicate (k + 1) ch))) :
    BuildHuffmanTree [(c, n)] = .ok (Node.mk c n Node.nil Node.nil)
      ∧ BuildCodes (Node.mk c n Node.nil Node.nil) [] GoMap.empty c = some []
      ∧ ∃ (m : Int) (codes : GoMap (List Char)),
          BuildHuffmanTree (range (countFreq (List.replicate (k + 1) ch)))
            = .ok (Node.mk (rune ch) m Node.nil Node.nil)
          ∧ Encode range (List.replicate (k + 1) ch) = .ok ([], codes)
          ∧ codes (rune ch) = some []
          ∧ Decode [] (Node.mk (rune ch) m Node.nil Node.nil) = .ok []
          ∧ ([] : List Char) ≠ List.replicate (k + 1) ch := by
  refine ⟨BuildHuffmanTree_single c n, ?_, ?_⟩
  · simp [BuildCodes, Node.isNil, GoMap.set]
  · obtain ⟨m, hm⟩ := countFreq_replicate ch k
    rw [hm] at hr
    have hrange : range (countFreq (List.replicate (k + 1) ch)) = [(rune ch, m)] := by
      rw [hm]
      exact List.perm_singleton.1 hr
    have hcode : BuildCodes (Node.mk (rune ch) m Node.nil Node.nil) [] GoMap.empty (rune ch)
        = some [] := by
      simp [BuildCodes, Node.isNil, GoMap.set]
    refine ⟨m, BuildCodes (Node.mk (rune ch) m Node.nil Node.nil) [] GoMap.empty,
      ?_, ?_, hcode, rfl, ?_⟩
    · rw [hrange]
      exact BuildHuffmanTree_single _ _
    · unfold Encode
      rw [hrange, BuildHuffmanTree_single]
      simp only
      rw [foldl_append_eq, flatMap_nil_of_forall]
      · rfl
      · intro x hx
        rw [List.eq_of_mem_replicate hx]
        unfold GoMap.get
        rw [hcode]
        rfl
    · rw [List.replicate_succ]
      exact (List.cons_ne_nil _ _).symm

theorem C11_single_symbol_witness :
    BuildHuffmanTree [(97, 3)] = .ok (Node.mk 97 3 Node.nil Node.nil)
      ∧ BuildCodes (Node.mk 97 3 Node.nil Node.nil) [] GoMap.empty 97 = some []
      ∧ ∃ (m : Int) (codes : GoMap (List Char)),
          BuildHuffmanTree (id (countFreq (List.replicate (2 + 1) 'a')))
            = .ok (Node.mk (rune 'a') m Node.nil Node.nil)
          ∧ Encode id (List.replicate (2 + 1) 'a') = .ok ([], codes)
          ∧ codes (rune 'a') = some []
          ∧ Decode [] (Node.mk (rune 'a') m Node.nil Node.nil) = .ok []
          ∧ ([] : List Char) ≠ List.replicate (2 + 1) 'a' :=
  C11_single_symbol 97 3 id 'a' 2 (List.Perm.refl _)

theorem perm_pair_cases (l : List (Int × Int)) (x y : Int × Int) (h : l.Perm [x, y]) :
    l = [x, y] ∨ l = [y, x] := by
  have hl := h.length_eq
  match l, hl with
  | [p, q], _ =>
    rcases List.mem_cons.1 (h.subset (List.mem_cons_self _ _)) with e | e
    · subst e
      have := List.perm_singleton.1 (h.cons_inv)
      left
      rw [List.cons.injEq] at this
      rw [this.1]
    · rw [List.mem_singleton] at e
      subst e
      have h2 : List.Perm [p, q] [p, x] := h.trans (List.Perm.swap _ _ _)
      have := List.perm_singleton.1 (h2.cons_inv)
      right
      rw [List.cons.injEq] at this
      rw [this.1]

/-- Claim C13, as stated, fails: `Encode("aaab")` returns the stream `"1110"`,
not `"0001"`. -/
theorem C13_counterexample :
    ∃ codes, Encode id ['a', 'a', 'a', 'b'] = .ok (['1', '1', '1', '0'], codes)
      ∧ (['1', '1', '1', '0'] : List Char) ≠ ['0', '0', '0', '1'] :=
  ⟨_, rfl, by decide⟩

/-- Claim C13, amended.  Concrete scenario `"aaab"`: for every iteration order
of the frequency table `{a:3, b:1}`, `Encode("aaab")` builds a tree whose root
frequency is 4, returns the code table `{a:"1", b:"0"}` (the node removed
first, the one of least frequency, becomes the left child) and returns the
encoded stream `"1110"`. -/
theorem C13_aaab (range : List (Int × Int) → List (Int × Int))
    (hr : (range (countFreq ['a', 'a', 'a', 'b'])).Perm (countFreq ['a', 'a', 'a', 'b'])) :
    ∃ root codes, BuildHuffmanTree (range (countFreq ['a', 'a', 'a', 'b'])) = .ok root
      ∧ root.freq = 4
      ∧ Encode range ['a', 'a', 'a', 'b'] = .ok (['1', '1', '1', '0'], codes)
      ∧ codes 97 = some ['1'] ∧ codes 98 = some ['0']
      ∧ ∀ k, k ≠ 97 → k ≠ 98 → codes k = none := by
  have hc : countFreq ['a', 'a', 'a', 'b'] = [(97, 3), (98, 1)] := by decide
  have hcodes : ∀ k : Int, k ≠ 97 → k ≠ 98 →
      BuildCodes (Node.mk 0 4 (Node.mk 98 1 Node.nil Node.nil)
        (Node.mk 97 3 Node.nil Node.nil)) [] GoMap.empty k = none := by
    intro k h1 h2
    simp [BuildCodes, Node.isNil, GoMap.set, GoMap.empty, h1, h2]
  rw [hc] at hr
  rcases perm_pair_cases _ _ _ hr with h | h
  · refine ⟨Node.mk 0 4 (Node.mk 98 1 Node.nil Node.nil) (Node.mk 97 3 Node.nil Node.nil),
      _, ?_, rfl, ?_, rfl, rfl, hcodes⟩
    · rw [hc, h]; rfl
    · unfold Encode
      rw [hc, h]
      rfl
  · refine ⟨Node.mk 0 4 (Node.mk 98 1 Node.nil Node.nil) (Node.mk 97 3 Node.nil Node.nil),
      _, ?_, rfl, ?_, rfl, rfl, hcodes⟩
    · rw [hc, h]; rfl
    · unfold Encode
      rw [hc, h]
      rfl

theorem C13_aaab_witness :
    ∃ root codes, BuildHuffmanTree (List.reverse (countFreq ['a', 'a', 'a', 'b'])) = .ok root
      ∧ root.freq = 4
      ∧ Encode List.reverse ['a', 'a', 'a', 'b'] = .ok (['1', '1', '1', '0'], codes)
      ∧ codes 97 = some ['1'] ∧ codes 98 = some ['0']
      ∧ ∀ k, k ≠ 97 → k ≠ 98 → codes k = none :=
  C13_aaab List.reverse (List.reverse_perm _)

/-- Claim C14.  Frequency counter: for every input string `s` (of fewer than
`2^63` symbols, as every Go string is), the frequency table that `Encode`
builds has one entry per distinct symbol of `s`, maps it to the number of
times it occurs in `s`, contains no other symbol, and so every count is at
least 1; for the empty string the table is empty. -/
theorem C14_frequency_counter (s : List Char)
    (hlen : (s.length : Int) < 9223372036854775808) :
    ((countFreq s).map Prod.fst).Nodup
      ∧ (∀ k n, (k, n) ∈ countFreq s ↔ k ∈ s.map rune ∧ n = ((s.map rune).count k : Int))
      ∧ (∀ c ∈ s, (rune c, (s.count c : Int)) ∈ countFreq s)
      ∧ (∀ e ∈ countFreq s, 1 ≤ e.2)
      ∧ countFreq [] = [] := by
  have hk := countFreq_keys s
  have hmem : ∀ k n, (k, n) ∈ countFreq s
      ↔ k ∈ s.map rune ∧ n = ((s.map rune).count k : Int) := by
    intro k n
    rw [mem_iff_freqGet _ hk.1, hk.2, countFreq_get s hlen]
    constructor
    · rintro ⟨h1, h2⟩; exact ⟨h1, h2.symm⟩
    · rintro ⟨h1, h2⟩; exact ⟨h1, h2.symm⟩
  refine ⟨hk.1, hmem, ?_, ?_, rfl⟩
  · intro c hc
    rw [hmem, count_rune]
    exact ⟨List.mem_map.2 ⟨c, hc, rfl⟩, rfl⟩
  · intro e he
    have h1 := (hmem e.1 e.2).1 he
    rw [h1.2]
    have : 0 < (s.map rune).count e.1 := List.count_pos_iff.2 h1.1
    omega

theorem C14_frequency_counter_witness :
    ((countFreq ['a', 'b', 'a']).map Prod.fst).Nodup
      ∧ (∀ k n, (k, n) ∈ countFreq ['a', 'b', 'a']
          ↔ k ∈ ['a', 'b', 'a'].map rune ∧ n = ((['a', 'b', 'a'].map rune).count k : Int))
      ∧ (∀ c ∈ ['a', 'b', 'a'], (rune c, ((['a', 'b', 'a'] : List Char).count c : Int))
          ∈ countFreq ['a', 'b', 'a'])
      ∧ (∀ e ∈ countFreq ['a', 'b', 'a'], 1 ≤ e.2)
      ∧ countFreq [] = [] :=
  C14_frequency_counter ['a', 'b', 'a'] (by decide)

theorem leaves_length_internal (t : Node) :
    t.isNil = false → t.shapeOk = true → t.leaves.length = t.internalCount + 1 := by
  induction t with
  | nil => intro h; simp [Node.isNil] at h
  | mk v f l r ihl ihr =>
    intro _ hs
    by_cases hleaf : (l.isNil && r.isNil) = true
    · simp [Node.leaves, Node.internalCount, hleaf, leaves_of_isNil,
        (Bool.and_eq_true _ _ ▸ hleaf).1, (Bool.and_eq_true _ _ ▸ hleaf).2]
    · simp only [Bool.not_eq_true] at hleaf
      obtain ⟨hl, hr, sl, sr⟩ := shapeOk_children v f l r hs hleaf
      rw [leaves_mk v f l r hleaf, List.length_append, ihl hl sl, ihr hr sr]
      simp only [Node.internalCount, hleaf, Bool.false_eq_true, if_false]
      omega

/-- Claim C15.  Leaves are the table: for every non-empty frequency table, in
whatever order it is iterated, the leaves of the tree returned by
`BuildHuffmanTree` are the entries of the table, one leaf per entry (the list
of the `(value, freq)` pairs of the leaves is a permutation of the entries);
so a table with `n` entries gives a tree with `n` leaves and `n - 1` internal
nodes. -/
theorem C15_leaves (freq : List (Int × Int)) (hne : freq ≠ []) :
    ∃ t, BuildHuffmanTree freq = .ok t ∧ t.leaves.Perm freq
      ∧ t.leaves.length = freq.length ∧ t.internalCount + 1 = freq.length := by
  obtain ⟨t, e, _, h1, h2, hl⟩ := BuildHuffmanTree_tree freq hne
  refine ⟨t, e, hl, hl.length_eq, ?_⟩
  rw [← leaves_length_internal t h1 h2, hl.length_eq]

theorem C15_leaves_witness :
    ∃ t, BuildHuffmanTree [(97, 3), (98, 1), (99, 2)] = .ok t
      ∧ t.leaves.Perm [(97, 3), (98, 1), (99, 2)]
      ∧ t.leaves.length = [(97, 3), (98, 1), (99, 2)].length
      ∧ t.internalCount + 1 = [(97, 3), (98, 1), (99, 2)].length :=
  C15_leaves [(97, 3), (98, 1), (99, 2)] (by decide)

/-! ### The merge step and the driver -/

theorem ForestOk_merge (q : List Node) (l r : Node) (rest : List Node)
    (hok : ForestOk q) (hp : q.Perm (l :: r :: rest)) :
    (parentOf l r).freq = l.freq + r.freq ∧ ForestOk (parentOf l r :: rest) := by
  have okl := hok.1 l (hp.symm.subset (by simp))
  have okr := hok.1 r (hp.symm.subset (by simp))
  have okrest : ∀ x ∈ rest, x.isNil = false ∧ x.freq = x.leafSum ∧ 0 ≤ x.freq :=
    fun x hx => hok.1 x (hp.symm.subset (by simp [hx]))
  have hsum : (q.map Node.freq).sum = l.freq + (r.freq + (rest.map Node.freq).sum) := by
    rw [(hp.map Node.freq).sum_eq]
    simp
  have hrest0 := sum_freq_nonneg rest (fun x hx => (okrest x hx).2.2)
  have hlt := hok.2
  have h1 := okl.2.2
  have h2 := okr.2.2
  have hpf : (parentOf l r).freq = l.freq + r.freq := by
    show wrap (l.freq + r.freq) = _
    apply wrap_of_isInt64
    unfold isInt64
    omega
  refine ⟨hpf, ?_, ?_⟩
  · intro x hx
    rcases List.mem_cons.1 hx with rfl | hx
    · refine ⟨rfl, ?_, ?_⟩
      · rw [hpf, leafSum_parentOf l r okl.1, okl.2.1, okr.2.1]
      · rw [hpf]; omega
    · exact okrest x hx
  · rw [List.map_cons, List.sum_cons, hpf]
    omega

theorem Huff_mergeOk (q : List Node) (t : Node) (h : Huff q t) :
    (∀ x ∈ q, x.mergeOk = true) → t.mergeOk = true := by
  induction h with
  | one t => intro hq; exact hq t (List.mem_singleton.2 rfl)
  | merge q l r rest t hp hl _ _ ih =>
    intro hq
    apply ih
    intro x hx
    rcases List.mem_cons.1 hx with rfl | hx
    · have h1 := hq l (hp.symm.subset (by simp))
      have h2 := hq r (hp.symm.subset (by simp))
      have h3 : l.freq ≤ r.freq := hl r (List.mem_cons_self _ _)
      simp [parentOf, Node.mergeOk, h1, h2, h3]
    · exact hq x (hp.symm.subset (by simp [hx]))

theorem Huff_sumOk (q : List Node) (t : Node) (h : Huff q t) :
    ForestOk q → (∀ x ∈ q, x.sumOk = true) → t.sumOk = true := by
  induction h with
  | one t => intro _ hq; exact hq t (List.mem_singleton.2 rfl)
  | merge q l r rest t hp _ _ _ ih =>
    intro hok hq
    obtain ⟨hpf, hok2⟩ := ForestOk_merge q l r rest hok hp
    apply ih hok2
    intro x hx
    rcases List.mem_cons.1 hx with rfl | hx
    · have h1 := hq l (hp.symm.subset (by simp))
      have h2 := hq r (hp.symm.subset (by simp))
      have h3 : wrap (l.freq + r.freq) = l.freq + r.freq := hpf
      simp [parentOf, Node.sumOk, h1, h2, h3]
    · exact hq x (hp.symm.subset (by simp [hx]))

/-- Claim C18, as stated, fails: on the table `{a: 2^62, b: 2^62}` the root's
`freq` is `-2^63`, the wrapped `int` sum of line 48, not the sum `2^63` of the
frequencies of its children. -/
theorem C18_counterexample :
    ∃ v f l r, BuildHuffmanTree [(97, 4611686018427387904), (98, 4611686018427387904)]
        = .ok (Node.mk v f l r)
      ∧ f = -9223372036854775808 ∧ l.freq + r.freq = 9223372036854775808
      ∧ f ≠ l.freq + r.freq :=
  ⟨_, _, _, _, rfl, rfl, rfl, by decide⟩

/-- Claim C18, amended.  Merge takes the two lowest: the queue is a heap when
the merge loop starts and after every iteration; in an iteration the first
node removed has the least frequency of the queue and the second the least
frequency of the rest, and the node added has them as `left` and `right`, in
the order removed, and as `freq` the sum `left.freq + right.freq` reduced to
the range of Go's 64-bit `int`.  So in every internal node of a built tree
`left.freq <= right.freq` and `freq` is that reduced sum, which is
`left.freq + right.freq` itself when the counts of the table are not negative
and add up to less than `2^63`. -/
theorem C18_merge_two_lowest (freq : List (Int × Int)) (hne : freq ≠ []) :
    IsHeap (heap.Init (freq.map leafOf))
      ∧ (∀ pq : PriorityQueue, IsHeap pq → 1 < pq.length →
          ∃ left pq1 right pq2, heap.Pop pq = .ok (left, pq1)
            ∧ heap.Pop pq1 = .ok (right, pq2)
            ∧ pq.Perm (left :: pq1) ∧ (∀ x ∈ pq, left.freq ≤ x.freq)
            ∧ pq1.Perm (right :: pq2) ∧ (∀ x ∈ pq1, right.freq ≤ x.freq)
            ∧ (∀ fuel, BuildHuffmanTree.loop (fuel + 1) pq
                = BuildHuffmanTree.loop fuel
                    (heap.Push pq2 (Node.mk 0 (wrap (left.freq + right.freq)) left right)))
            ∧ IsHeap (heap.Push pq2 (Node.mk 0 (wrap (left.freq + right.freq)) left right)))
      ∧ ∃ t, BuildHuffmanTree freq = .ok t ∧ t.mergeOk = true
          ∧ ((∀ e ∈ freq, 0 ≤ e.2) → (freq.map Prod.snd).sum < 9223372036854775808 →
              t.sumOk = true) := by
  refine ⟨(Init_spec _).2, ?_, ?_⟩
  · intro pq hh hlen
    obtain ⟨l, pq1, e1, p1, hh1, m1⟩ := Pop_spec pq (by omega) hh
    have l1 := Pop_length _ _ _ p1
    obtain ⟨r, pq2, e2, p2, hh2, m2⟩ := Pop_spec pq1 (by omega) hh1
    refine ⟨l, pq1, r, pq2, e1, e2, p1, ?_, p2, ?_, ?_, (Push_spec pq2 _ hh2).2⟩
    · intro x hx
      rcases List.mem_cons.1 (p1.subset hx) with e | h
      · rw [e]
      · exact m1 x h
    · intro x hx
      rcases List.mem_cons.1 (p2.subset hx) with e | h
      · rw [e]
      · exact m2 x h
    · intro fuel
      conv_lhs => unfold BuildHuffmanTree.loop
      rw [if_pos (by exact hlen), e1]
      simp only
      rw [e2]
  · obtain ⟨t, e, h, _, _, _⟩ := BuildHuffmanTree_tree freq hne
    have hleaf : ∀ x ∈ freq.map leafOf, x.mergeOk = true ∧ x.sumOk = true := by
      intro x hx
      obtain ⟨e, _, rfl⟩ := List.mem_map.1 hx
      exact ⟨rfl, rfl⟩
    refine ⟨t, e, Huff_mergeOk _ t h (fun x hx => (hleaf x hx).1), ?_⟩
    intro hpos hsum
    exact Huff_sumOk _ t h (ForestOk_leaves freq hpos hsum) (fun x hx => (hleaf x hx).2)

theorem C18_merge_two_lowest_witness :
    ∃ t, BuildHuffmanTree [(97, 3), (98, 1), (99, 2)] = .ok t ∧ t.mergeOk = true
      ∧ t.sumOk = true :=
  (C18_merge_two_lowest [(97, 3), (98, 1), (99, 2)] (by decide)).2.2.imp
    (fun _ h => ⟨h.1, h.2.1, h.2.2 (by decide) (by decide)⟩)

/-- Claim C12 on the code: when `Encode` iterates its frequency table in the
order of first occurrence and the separate `BuildHuffmanTree` call of line 107
iterates its map with `e` before `h`, the two trees differ and `main` decodes
`"ehllo world"` instead of `"hello world"`. -/
theorem C12_driver_mismatch :
    ∃ encoded codes root, Encode id helloWorld = .ok (encoded, codes)
      ∧ mainTableOrder.Perm (countFreq helloWorld)
      ∧ BuildHuffmanTree mainTableOrder = .ok root
      ∧ Decode encoded root = .ok ehlloWorld
      ∧ ehlloWorld ≠ helloWorld :=
  ⟨_, _, _, rfl, List.Perm.swap _ _ _, rfl, rfl, by decide⟩

/-! ### The length of the encoded stream -/

theorem length_flatMap_sum (f : Char → List Char) (s : List Char) :
    ((s.flatMap f).length : Int) = (s.map (fun c => ((f c).length : Int))).sum := by
  induction s with
  | nil => rfl
  | cons c s ih =>
    rw [List.flatMap_cons, List.length_append, List.map_cons, List.sum_cons, ← ih]
    push_cast
    rfl

theorem indicator_sum (g : Int → Int) (x : Int) (K : List Int) (hnd : K.Nodup)
    (hx : x ∈ K) :
    (K.map (fun k => (if x = k then 1 else 0) * g k)).sum = g x := by
  induction K with
  | nil => simp at hx
  | cons a K ih =>
    rw [List.nodup_cons] at hnd
    rw [List.map_cons, List.sum_cons]
    by_cases h : x = a
    · subst h
      have hz : (K.map (fun k => (if x = k then 1 else 0) * g k)).sum = 0 := by
        apply List.sum_eq_zero
        intro y hy
        obtain ⟨k, hk, rfl⟩ := List.mem_map.1 hy
        have : x ≠ k := fun e => hnd.1 (e ▸ hk)
        simp [this]
      rw [hz]
      simp
    · have hx2 : x ∈ K := by
        rcases List.mem_cons.1 hx with e | e
        · exact absurd e h
        · exact e
      rw [ih hnd.2 hx2]
      simp [h]

/-- A sum over a list, regrouped by the distinct values of the list. -/
theorem sum_regroup (g : Int → Int) (K : List Int) (hnd : K.Nodup) :
    ∀ L : List Int, (∀ x ∈ L, x ∈ K) →
      (L.map g).sum = (K.map (fun k => (L.count k : Int) * g k)).sum := by
  intro L
  induction L with
  | nil =>
    intro _
    simp
  | cons x L ih =>
    intro hL
    rw [List.map_cons, List.sum_cons, ih (fun y hy => hL y (List.mem_cons_of_mem _ hy))]
    have e : ∀ k, ((List.count k (x :: L) : Nat) : Int) * g k
        = (if x = k then 1 else 0) * g k + (L.count k : Int) * g k := by
      intro k
      rw [List.count_cons]
      by_cases h : x = k
      · simp [h]; ring
      · simp [h]
    simp only [e]
    rw [List.sum_map_add, indicator_sum g x K hnd (hL x (List.mem_cons_self _ _))]

/-- The length of the stream `Encode` returns is the weighted path length of
the tree it built. -/
theorem encoded_length_cost (root : Node) (s : List Char)
    (hlen : (s.length : Int) < 9223372036854775808)
    (hl : root.leaves.Perm (countFreq s)) :
    ((s.flatMap (fun c => (BuildCodes root [] GoMap.empty).get (rune c))).length : Int)
      = root.cost := by
  have hnd := Encode_nodup root s hl
  obtain ⟨g, hg⟩ : ∃ g : Int → Int,
      g = fun k => (((BuildCodes root [] GoMap.empty).get k).length : Int) := ⟨_, rfl⟩
  have h1 : ((s.flatMap (fun c => (BuildCodes root [] GoMap.empty).get (rune c))).length : Int)
      = ((s.map rune).map g).sum := by
    rw [length_flatMap_sum, List.map_map, hg]
    rfl
  have hK : (root.info.map (fun i => i.1)).Nodup := by
    have : root.info.map (fun i => i.1) = (leafPaths root).map Prod.fst := by
      rw [← info_leafPaths, List.map_map]
      rfl
    rw [this]
    exact hnd
  have hsub : ∀ x ∈ s.map rune, x ∈ root.info.map (fun i => i.1) := by
    intro x hx
    obtain ⟨w, hw⟩ := (Encode_keys root s hl x).2 hx
    rw [← info_leafPaths] at hw
    obtain ⟨i, hi, ei⟩ := List.mem_map.1 hw
    simp only [Prod.mk.injEq] at ei
    exact List.mem_map.2 ⟨i, hi, ei.1⟩
  rw [h1, sum_regroup g _ hK _ hsub, List.map_map]
  unfold Node.cost pcost
  rw [← info_wd, List.map_map]
  congr 1
  apply List.map_congr_left
  intro i hi
  simp only [Function.comp]
  have e1 : (i.1, i.2.1) ∈ root.leaves := by
    rw [← info_leaves]
    exact List.mem_map.2 ⟨i, hi, rfl⟩
  have e2 := (mem_iff_freqGet _ (countFreq_keys s).1 _ _).1 (hl.subset e1)
  rw [countFreq_get s hlen] at e2
  have e3 : (i.1, i.2.2) ∈ leafPaths root := by
    rw [← info_leafPaths]
    exact List.mem_map.2 ⟨i, hi, rfl⟩
  have e4 := (C4_aux root hnd _ _).2 e3
  rw [e2.2, hg]
  simp only [GoMap.get, e4, Option.getD_some]

/-- Claim C16.  Tie-break independence of the encoded length: for every
non-empty input string `s` (of fewer than `2^63` symbols, as every Go string
is) and every two orders in which the frequency table of `s` may be iterated,
the two encoded streams that `Encode` returns have the same length. -/
theorem C16_length_independent (range1 range2 : List (Int × Int) → List (Int × Int))
    (s : List Char) (hne : s ≠ []) (hlen : (s.length : Int) < 9223372036854775808)
    (hr1 : (range1 (countFreq s)).Perm (countFreq s))
    (hr2 : (range2 (countFreq s)).Perm (countFreq s)) :
    ∃ e1 c1 e2 c2, Encode range1 s = .ok (e1, c1) ∧ Encode range2 s = .ok (e2, c2)
      ∧ e1.length = e2.length := by
  obtain ⟨t1, _, hH1, n1, s1, l1, en1⟩ := Encode_spec range1 s hne hr1
  obtain ⟨t2, _, hH2, n2, s2, l2, en2⟩ := Encode_spec range2 s hne hr2
  refine ⟨_, _, _, _, en1, en2, ?_⟩
  have c1 := encoded_length_cost t1 s hlen l1
  have c2 := encoded_length_cost t2 s hlen l2
  have hpos : ∀ (range : List (Int × Int) → List (Int × Int)),
      (range (countFreq s)).Perm (countFreq s) → ∀ e ∈ range (countFreq s), 0 ≤ e.2 := by
    intro range hr e he
    have h2 := (mem_iff_freqGet _ (countFreq_keys s).1 e.1 e.2).1 (hr.subset he)
    rw [← h2.2, countFreq_get s hlen]
    exact Int.natCast_nonneg _
  have hsum : ∀ (range : List (Int × Int) → List (Int × Int)),
      (range (countFreq s)).Perm (countFreq s) →
      ((range (countFreq s)).map Prod.snd).sum < 9223372036854775808 := by
    intro range hr
    rw [(hr.map Prod.snd).sum_eq, countFreq_sum s hlen]
    exact hlen
  have hW : ∀ (t : Node) (range : List (Int × Int) → List (Int × Int)),
      t.leaves.Perm (countFreq s) → (range (countFreq s)).Perm (countFreq s) →
      (t.wd.map Prod.fst).Perm ((range (countFreq s)).map Prod.snd) := by
    intro t range hl hr
    rw [wd_fst]
    exact (hl.trans hr.symm).map Prod.snd
  have a1 := Huff_optimal_table _ t1 hH1 (hpos range1 hr1) (hsum range1 hr1) t2.wd
    (shape_FullDepths t2 n2 s2) (hW t2 range1 l2 hr1)
  have a2 := Huff_optimal_table _ t2 hH2 (hpos range2 hr2) (hsum range2 hr2) t1.wd
    (shape_FullDepths t1 n1 s1) (hW t1 range2 l1 hr2)
  have : ((s.flatMap (fun c => (BuildCodes t1 [] GoMap.empty).get (rune c))).length : Int)
      = ((s.flatMap (fun c => (BuildCodes t2 [] GoMap.empty).get (rune c))).length : Int) := by
    rw [c1, c2]
    exact le_antisymm a1 a2
  exact_mod_cast this

theorem C16_length_independent_witness :
    ∃ e1 c1 e2 c2, Encode id helloWorld = .ok (e1, c1)
      ∧ Encode List.reverse helloWorld = .ok (e2, c2) ∧ e1.length = e2.length :=
  C16_length_independent id List.reverse helloWorld (by decide) (by decide)
    (List.Perm.refl _) (List.reverse_perm _)

/-! ### Streams that end inside a code word -/

theorem decode_word_list (root : Node) (hroot : root.isLeaf = false)
    (words : List (Int × List Char)) (hwords : ∀ p ∈ words, p ∈ leafPaths root) :
    ∀ (rest acc : List Char),
      Decode.loop root (words.flatMap Prod.snd ++ rest) root acc
        = Decode.loop root rest root (acc ++ words.flatMap (fun p => runeToString p.1)) := by
  induction words with
  | nil => intro rest acc; simp
  | cons p words ih =>
    intro rest acc
    rw [List.flatMap_cons, List.append_assoc,
      decode_word root root p.1 p.2 (hwords p (List.mem_cons_self _ _)) hroot,
      ih (fun x hx => hwords x (List.mem_cons_of_mem _ hx)), List.flatMap_cons,
      List.append_assoc]

/-- Walking a proper beginning `w` of a code word moves the cursor to a node
strictly inside the tree and emits nothing. -/
theorem decode_unfinished (root : Node) :
    ∀ (w : List Char) (cur : Node) (v : Int) (tail : List Char),
      (v, w ++ tail) ∈ leafPaths cur → tail ≠ [] → ∀ acc : List Char,
        ∃ c, Decode.loop root w cur acc = .ok (c, acc) ∧ (v, tail) ∈ leafPaths c
          ∧ c.size + w.length ≤ cur.size := by
  intro w
  induction w with
  | nil => intro cur v tail h _ acc; exact ⟨cur, rfl, h, by simp⟩
  | cons b w ih =>
    intro cur v tail h ht acc
    cases cur with
    | nil => simp [leafPaths] at h
    | mk v0 f l r =>
      by_cases hleaf : (l.isNil && r.isNil) = true
      · rw [leafPaths_nil_of_leaf v0 f l r hleaf] at h
        simp at h
      · simp only [leafPaths, hleaf, Bool.false_eq_true, if_false, List.nil_append,
          List.mem_append, List.mem_map, List.cons_append] at h
        have step : ∀ (child : Node), (if b = '0' then l else r) = child →
            child.size < (Node.mk v0 f l r).size → (v, w ++ tail) ∈ leafPaths child →
            ∃ c, Decode.loop root (b :: w) (Node.mk v0 f l r) acc = .ok (c, acc)
              ∧ (v, tail) ∈ leafPaths c
              ∧ c.size + (b :: w).length ≤ (Node.mk v0 f l r).size := by
          intro child hc hsize hmem
          cases child with
          | nil => simp [leafPaths] at hmem
          | mk v1 f1 l1 r1 =>
            have hnl : ¬ (l1.isNil && r1.isNil) = true := by
              intro hl1
              rw [leafPaths_nil_of_leaf v1 f1 l1 r1 hl1] at hmem
              simp at hmem
              exact ht hmem.2.2
            rw [loop_cons_mk root b w v0 f l r acc v1 f1 l1 r1 hc, if_neg hnl]
            obtain ⟨c, h1, h2, h3⟩ := ih (Node.mk v1 f1 l1 r1) v tail hmem ht acc
            refine ⟨c, h1, h2, ?_⟩
            simp only [List.length_cons]
            omega
        rcases h with ⟨e, he, hev⟩ | ⟨e, he, hev⟩
        · simp only [Prod.mk.injEq, List.cons.injEq] at hev
          obtain ⟨rfl, rfl, hw⟩ := hev
          exact step l (if_pos rfl) (by simp only [Node.size]; omega) (by rw [← hw]; exact he)
        · simp only [Prod.mk.injEq, List.cons.injEq] at hev
          obtain ⟨rfl, rfl, hw⟩ := hev
          exact step r (if_neg (by decide)) (by simp only [Node.size]; omega)
            (by rw [← hw]; exact he)

/-- Claim C10, amended.  `Decode` has no end-of-stream check.  For every tree,
whenever the loop ends without meeting a missing child `Decode` returns its
output and no error, wherever the cursor stands; and for every stream made of
complete code words followed by a non-empty proper beginning `w` of a code
word, the loop ends with the cursor on a node other than the root, and
`Decode` returns the symbols of the complete code words: the bits of the
unfinished code word are dropped. -/
theorem C10_truncated_stream (root : Node) (words : List (Int × List Char))
    (hwords : ∀ p ∈ words, p ∈ leafPaths root) (v : Int) (w tail : List Char)
    (hw : (v, w ++ tail) ∈ leafPaths root) (hw0 : w ≠ []) (htail : tail ≠ []) :
    (∀ (e : List Char) (cur : Node) (out : List Char),
        Decode.loop root e root [] = .ok (cur, out) → Decode e root = .ok out)
      ∧ ∃ cur, Decode.loop root (words.flatMap Prod.snd ++ w) root []
            = .ok (cur, words.flatMap (fun p => runeToString p.1))
          ∧ cur ≠ root ∧ cur.isNil = false
          ∧ Decode (words.flatMap Prod.snd ++ w) root
              = .ok (words.flatMap (fun p => runeToString p.1)) := by
  constructor
  · intro e cur out h
    unfold Decode
    rw [h]
  · have hroot : root.isLeaf = false := by
      cases root with
      | nil => rfl
      | mk v0 f l r =>
        cases hleaf : (Node.mk v0 f l r).isLeaf with
        | false => rfl
        | true =>
          exfalso
          rw [leafPaths_nil_of_leaf v0 f l r hleaf] at hw
          simp at hw
          exact hw0 hw.2.1
    obtain ⟨c, h1, h2, h3⟩ := decode_unfinished root w root v tail hw htail
      ([] ++ words.flatMap (fun p => runeToString p.1))
    have hloop : Decode.loop root (words.flatMap Prod.snd ++ w) root []
        = .ok (c, words.flatMap (fun p => runeToString p.1)) := by
      rw [decode_word_list root hroot words hwords w [], h1]
      rfl
    refine ⟨c, hloop, ?_, ?_, ?_⟩
    · intro e
      rw [e] at h3
      have : 0 < w.length := List.length_pos.2 hw0
      omega
    · cases c with
      | nil => simp [leafPaths] at h2
      | mk _ _ _ _ => rfl
    · unfold Decode
      rw [hloop]

theorem C10_truncated_stream_witness :
    ∃ cur, Decode.loop depth3Tree ['0', '0', '0', '0', '1'] depth3Tree []
          = .ok (cur, ['a'])
      ∧ cur ≠ depth3Tree ∧ cur.isNil = false
      ∧ Decode ['0', '0', '0', '0', '1'] depth3Tree = .ok ['a'] :=
  (C10_truncated_stream depth3Tree [(97, ['0', '0', '0'])] (by decide) 99 ['0', '1'] ['0']
    (by decide) (by decide) (by decide)).2

end Huffman
